import Mathlib

/-!
Verification development for the rwsort external-memory sorter
(src/src/rwsort/rwsort.c).  The definitions below are a shallow embedding of
the sorter: records and nodes are modelled as Lean structures over Nat,
streams and temporary files as lists of nodes, and the stateful drivers
(sortRandom, sortPresorted, mergeFiles) as explicit state-passing functions.
External collaborators whose sources are not in the repository snapshot
(libsilk: skQSort, skTempFile, skStream, skheap, appNextInput and the
constants of rwsort.h) are modelled from the spec's contracts; each such
definition says so in its doc comment.  Failure modes of the environment
(allocation, file opens, record writes) are supplied by oracle functions so
that the theorems quantify over every environment behavior.
-/

namespace RwSort

/-- Model of the SiLK flow record (rwRec).  The record itself is opaque to the
sorter; only the accessor values used by rwrecCompare matter, so each built-in
field is a Nat (addresses compare by full numeric width per the spec).
isICMP models rwRecIsICMP. -/
structure RwRec where
  sip : Nat
  dip : Nat
  nhip : Nat
  sport : Nat
  dport : Nat
  proto : Nat
  pkts : Nat
  bytes : Nat
  flags : Nat
  stime : Nat
  elapsed : Nat
  sid : Nat
  nicIn : Nat
  nicOut : Nat
  initFlags : Nat
  restFlags : Nat
  tcpState : Nat
  app : Nat
  ftype : Nat
  icmpType : Nat
  icmpCode : Nat
  isICMP : Bool
deriving DecidableEq, Inhabited

/-- Model of a node: the record bytes followed by the binary key bytes
produced by each plug-in key field (rwsort.c stores them at kf_offset; here
pkeys.getD i is the key block of the i-th plug-in field). -/
structure Node where
  rwrec : RwRec
  pkeys : List (List Nat)
deriving DecidableEq, Inhabited

/-- Model of fillRecordAndKey's key extraction: the i-th plug-in rec-to-bin
function fills the i-th key block of the node (rwsort.c lines 421-433). -/
def mkNode (extr : List (RwRec → List Nat)) (r : RwRec) : Node :=
  { rwrec := r, pkeys := extr.map (fun f => f r) }

/-- Sort field descriptors: the cases of the switch in rwrecCompare
(rwsort.c lines 211-364).  A plug-in field carries its binary comparator
(pure, per the plug-in contract) and the index of its key block. -/
inductive SortField where
  | sip
  | dip
  | nhip
  | sport
  | dport
  | proto
  | pkts
  | bytes
  | flags
  | stime
  | stimeMsec
  | elapsedF
  | elapsedMsec
  | etime
  | etimeMsec
  | sid
  | nicIn
  | nicOut
  | initFlags
  | restFlags
  | tcpState
  | app
  | ftypeClass
  | ftypeType
  | icmpTypeF
  | icmpCodeF
  | plugin (pcmp : List Nat → List Nat → Int) (idx : Nat)

/-- Accessor for a built-in sort field.  stime and stime-msec share one
accessor (rwRecGetStartTime), likewise elapsed and etime variants; etime is
derived as stime + elapsed (spec 4.1); icmp type and code are zero for
non-ICMP records (getIcmpType and getIcmpCode, rwsort.c lines 174-192);
ftype class and type share rwRecGetFlowType. -/
def fieldAcc : SortField → RwRec → Nat
  | .sip, r => r.sip
  | .dip, r => r.dip
  | .nhip, r => r.nhip
  | .sport, r => r.sport
  | .dport, r => r.dport
  | .proto, r => r.proto
  | .pkts, r => r.pkts
  | .bytes, r => r.bytes
  | .flags, r => r.flags
  | .stime, r => r.stime
  | .stimeMsec, r => r.stime
  | .elapsedF, r => r.elapsed
  | .elapsedMsec, r => r.elapsed
  | .etime, r => r.stime + r.elapsed
  | .etimeMsec, r => r.stime + r.elapsed
  | .sid, r => r.sid
  | .nicIn, r => r.nicIn
  | .nicOut, r => r.nicOut
  | .initFlags, r => r.initFlags
  | .restFlags, r => r.restFlags
  | .tcpState, r => r.tcpState
  | .app, r => r.app
  | .ftypeClass, r => r.ftype
  | .ftypeType, r => r.ftype
  | .icmpTypeF, r => if r.isICMP then r.icmpType else 0
  | .icmpCodeF, r => if r.isICMP then r.icmpCode else 0
  | .plugin _ _, _ => 0

/-- Three-way comparison on Nat values, the shape of RETURN_IF_SORTED
(rwsort.c lines 151-159) and of skipaddrCompare on numeric addresses. -/
def natCmp (x y : Nat) : Int :=
  if x < y then -1 else if y < x then 1 else 0

/-- Comparison of one sort field of two nodes: a built-in field compares its
accessor values; a plug-in field runs its binary comparator on the key
blocks (skPluginFieldRunBinCompareFn, rwsort.c lines 348-350). -/
def fieldCompare : SortField → Node → Node → Int
  | .plugin pcmp idx, a, b => pcmp (a.pkeys.getD idx []) (b.pkeys.getD idx [])
  | f, a, b => natCmp (fieldAcc f a.rwrec) (fieldAcc f b.rwrec)

/-- Model of rwrecCompare (rwsort.c lines 201-368): apply the sort fields
left to right; the first non-zero comparison is returned, negated when the
reverse flag is set (RETURN_SORT_ORDER, lines 147-148). -/
def rwrecCompare (rev : Bool) : List SortField → Node → Node → Int
  | [], _, _ => 0
  | f :: fs, a, b =>
      if fieldCompare f a b = 0 then rwrecCompare rev fs a b
      else if rev then -(fieldCompare f a b) else fieldCompare f a b

/-- Non-strict order induced by an integer comparator. -/
def leOf (cmp : Node → Node → Int) (x y : Node) : Prop := cmp x y ≤ 0

instance (cmp : Node → Node → Int) : DecidableRel (leOf cmp) :=
  fun x y => inferInstanceAs (Decidable (cmp x y ≤ 0))

/-- Order induced by the configured comparator (the compare relation of the
spec's Order invariant). -/
def nodeLe (K : List SortField) (rev : Bool) : Node → Node → Prop :=
  leOf (rwrecCompare rev K)

instance (K : List SortField) (rev : Bool) : DecidableRel (nodeLe K rev) :=
  fun x y => inferInstanceAs (Decidable (rwrecCompare rev K x y ≤ 0))

/-- A comparator is well behaved when it is sign-antisymmetric and its
non-strict order is transitive.  This is the (implicit) contract of the
plug-in binary comparators: they must define a total order on key blocks
(spec section 4.1). -/
def CmpOk (cmp : Node → Node → Int) : Prop :=
  (∀ x y, cmp x y = -cmp y x) ∧ ∀ x y z, cmp x y ≤ 0 → cmp y z ≤ 0 → cmp x z ≤ 0

/-- Contract for one sort field: built-in fields always satisfy it, a
plug-in field must carry a well behaved binary comparator. -/
def fieldOk : SortField → Prop
  | .plugin pcmp _ =>
      (∀ x y, pcmp x y = -pcmp y x) ∧ ∀ x y z, pcmp x y ≤ 0 → pcmp y z ≤ 0 → pcmp x z ≤ 0
  | _ => True

/-- Contract for a sort-field configuration. -/
def KOk (K : List SortField) : Prop := ∀ f ∈ K, fieldOk f

/-- Insertion of a node into a sorted list, auxiliary to sortBuf. -/
def insertNode (cmp : Node → Node → Int) (x : Node) : List Node → List Node
  | [] => [x]
  | y :: ys => if cmp x y ≤ 0 then x :: y :: ys else y :: insertNode cmp x ys

/-- Modelled from the spec: skQSort (libsilk, not in the snapshot) sorts the
run buffer in place with the configured comparator (rwsort.c lines 1011 and
1032).  Modelled as an insertion sort, which agrees with qsort on every well
behaved comparator up to the order of equal keys. -/
def sortBuf (cmp : Node → Node → Int) (l : List Node) : List Node :=
  l.foldr (insertNode cmp) []

/-- Head of a run (runs handled by the merger are never empty). -/
def hd0 (l : List Node) : Node := l.headD default

/-- Select the run whose head node is minimal under the comparator, returning
it together with the remaining runs.  This models one skHeapPeekTop of the
merge heap: the heap is keyed by compHeapNodes over the scratch nodes
(rwsort.c lines 380-390), so its top is a run whose pending node is minimal.
Tie-breaking among equal heads is unspecified in a heap; here the earliest
run wins. -/
def extractMin (cmp : Node → Node → Int) : List Node → List (List Node) → List Node × List (List Node)
  | best, [] => (best, [])
  | best, r :: rs =>
      if cmp (hd0 r) (hd0 best) < 0 then
        ((extractMin cmp r rs).1, best :: (extractMin cmp r rs).2)
      else
        ((extractMin cmp best rs).1, r :: (extractMin cmp best rs).2)

/-- Total number of pending nodes over all runs. -/
def totalLen (rss : List (List Node)) : Nat := (rss.map List.length).sum

/-- Fueled heart of the k-way merge loop (rwsort.c lines 562-627): while at
least two runs are live, emit the minimal pending node and advance its run,
dropping the run when it is exhausted; when a single run remains it is
drained directly into the destination.  The fuel is the total node count, so
it never runs out on the lists the merger builds. -/
def kmergeAux (cmp : Node → Node → Int) : Nat → List (List Node) → List Node
  | 0, rss => rss.flatten
  | _ + 1, [] => []
  | _ + 1, [r] => r
  | fuel + 1, r :: r2 :: rs =>
      match extractMin cmp r (r2 :: rs) with
      | ([], _) => []
      | (x :: xs, rest) => x :: kmergeAux cmp fuel (if xs = [] then rest else xs :: rest)

/-- Merge of a list of (non-empty) runs into one sequence. -/
def kmerge (cmp : Node → Node → Int) (rss : List (List Node)) : List Node :=
  kmergeAux cmp (totalLen rss) rss

/-- Result of one skStreamWriteRecord on the output stream (spec 4.8): ok, a
retryable error (logged, record not emitted, processing continues), or a
fatal error (SKSTREAM_ERROR_IS_FATAL, the sort exits). -/
inductive WRes where
  | ok
  | retryErr
  | fatalErr
deriving DecidableEq

/-- Write a sequence of nodes to the output stream, consulting the writer
oracle per attempt (rwsort.c lines 580-586 and elsewhere): an ok write emits
the node, a retryable error drops it and continues, a fatal error aborts.
Returns the next write counter and the emitted subsequence, or none on a
fatal writer error. -/
def writeAll (wr : Nat → WRes) : Nat → List Node → Option (Nat × List Node)
  | wn, [] => some (wn, [])
  | wn, x :: xs =>
      match wr wn with
      | .ok =>
          match writeAll wr (wn + 1) xs with
          | none => none
          | some p => some (p.1, x :: p.2)
      | .retryErr => writeAll wr (wn + 1) xs
      | .fatalErr => none

/-- Result of one attempt to open a reader: success, a resource failure
(EMFILE or ENOMEM), or any other error. -/
inductive OpenRes where
  | ok
  | resErr
  | otherErr
deriving DecidableEq

/-- Result of the reader-opening loop of a merge pass: fatal exit (with the
number of opens that had succeeded), or the seeded runs, the number of files
consumed by the pass, the number of successful opens, and whether the pass
was truncated by a resource failure. -/
inductive OpenOut where
  | fatal (cnt : Nat)
  | done (seeded : List (List Node)) (consumed : Nat) (cnt : Nat) (truncated : Bool)
deriving DecidableEq

/-- The non-empty contents of the files at the given indices, in order: the
runs that enter the merge heap when those files are opened and their first
node is read (empty files are skipped, rwsort.c lines 526-531). -/
def seedsOf (files : List (List Node)) (idxs : List Nat) : List (List Node) :=
  (idxs.map (fun j => files.getD j [])).filter (fun r => !r.isEmpty)

/-- Model of the reader-opening loop of mergeFiles (rwsort.c lines 499-541).
The loop walks the scheduled indices; a successful open whose file is empty
is skipped without seeding (the continue at line 530); a resource failure
(EMFILE or ENOMEM) truncates the pass if at least one reader has been seeded
so far (open_count counts seeded readers) and is fatal otherwise; any other
open failure is fatal.  The boolean argument is whether a reader has been
seeded so far. -/
def openScan (files : List (List Node)) (oracle : Nat → OpenRes) :
    List Nat → Bool → OpenOut
  | [], _ => .done [] 0 0 false
  | j :: rest, seen =>
      match oracle j with
      | .ok =>
          match openScan files oracle rest (seen || !(files.getD j []).isEmpty) with
          | .done s c k t =>
              .done (if files.getD j [] = [] then s else files.getD j [] :: s) (c + 1) (k + 1) t
          | .fatal k => .fatal (k + 1)
      | .resErr => if seen then .done [] 0 0 true else .fatal 0
      | .otherErr => .fatal 0

/-- Contents of the temp files with indices a, a+1, ..., a+n-1, concatenated
in index order (a derived notion used to state conservation invariants). -/
def segFlat (files : List (List Node)) (a n : Nat) : List Node :=
  ((List.range' a n).map (fun j => files.getD j [])).flatten

/-- State of the mergeFiles loop: every temp file ever created (indexed by
position, per the monotonic-index temp-file contract of spec section 6),
the first scheduled index a (tmp_idx_a), the last active index
(temp_file_idx), the indices removed so far (skTempFileRemove), the records
emitted to the final output, and the write-attempt counter. -/
structure MState where
  files : List (List Node)
  a : Nat
  last : Nat
  deleted : List Nat
  out : List Node
  wn : Nat
deriving DecidableEq

/-- Last index scheduled for a pass before truncation (rwsort.c lines
483-487): all remaining files when they fit in MAX_MERGE_FILES, else
a + MAX_MERGE_FILES - 1. -/
def passB0 (M : Nat) (st : MState) : Nat :=
  if st.last - st.a < M - 1 then st.last else st.a + M - 1

/-- Outcome of one pass of mergeFiles: continue cascading, finished (wrote
the final output), fatal exit, or the undefined behavior reached when the
unchecked skHeapExtractTop at line 604 finds an empty heap and the drain
loop then reads recs and fps at an indeterminate index. -/
inductive PassOut where
  | next (st : MState)
  | finished (st : MState)
  | fatalErr (st : MState)
  | uninit (st : MState)
deriving DecidableEq

/-- One pass of mergeFiles (rwsort.c lines 479-657).  The pass creates an
intermediate temp file (skTempFileCreate, line 492, before any reader is
opened), opens up to MAX_MERGE_FILES readers with possible truncation, and
merges the seeded runs.  If the (possibly truncated) upper bound reaches the
last active index the intermediate is closed unused and the merged records
go to the final output; otherwise they go to the intermediate, whose index
becomes the new last active index.  The consumed range is then deleted and
the next pass starts just after it.  Temp-file writes are modelled as
succeeding (a failed fwrite is a fatal exit in the source and no claim
involves it). -/
def mergePass (cmp : Node → Node → Int) (oracle : Nat → OpenRes) (wr : Nat → WRes) (M : Nat)
    (st : MState) : PassOut :=
  let b0 := passB0 M st
  let idxInt := st.files.length
  let files1 := st.files ++ [[]]
  match openScan files1 oracle (List.range' st.a (b0 + 1 - st.a)) false with
  | .fatal _ => .fatalErr { st with files := files1 }
  | .done seeded consumed _ _ =>
      if seeded = [] then .uninit { st with files := files1 }
      else
        let merged := kmerge cmp seeded
        if st.a + consumed = st.last + 1 then
          match writeAll wr st.wn merged with
          | none => .fatalErr { st with files := files1 }
          | some p =>
              .finished { files := files1, a := st.a + consumed, last := st.last,
                          deleted := st.deleted ++ List.range' st.a consumed,
                          out := st.out ++ p.2, wn := p.1 }
        else
          .next { files := files1.set idxInt merged, a := st.a + consumed, last := idxInt,
                  deleted := st.deleted ++ List.range' st.a consumed,
                  out := st.out, wn := st.wn }

/-- Overall outcome of a sorter execution. -/
inductive Outcome where
  | ok
  | fatalExit
  | uninitDrain
  | noFuel
deriving DecidableEq

/-- The do-while loop of mergeFiles, iterating passes until one writes the
final output.  Fueled; the fuel models the (unbounded) iteration count. -/
def mergeRun (cmp : Node → Node → Int) (oracle : Nat → OpenRes) (wr : Nat → WRes) (M : Nat) :
    Nat → MState → Outcome × MState
  | 0, st => (.noFuel, st)
  | fuel + 1, st =>
      match mergePass cmp oracle wr M st with
      | .next st' => mergeRun cmp oracle wr M fuel st'
      | .finished st' => (.ok, st')
      | .fatalErr st' => (.fatalExit, st')
      | .uninit st' => (.uninitDrain, st')

/-- Modelled from the spec: MIN_IN_CORE_RECORDS, the floor on the chunk size
of the initial run-buffer allocation (rwsort.h is not in the snapshot; the
spec gives the default 1000). -/
def MIN_IN_CORE_RECORDS : Nat := 1000

/-- The guard on SORT_NUM_CHUNKS at rwsort.c lines 910-913: a non-positive
chunk count becomes 1. -/
def numChunksInit (nc0 : Nat) : Nat := if nc0 = 0 then 1 else nc0

/-- The initial-allocation retry loop of sortRandom (rwsort.c lines
918-939): the chunk is maxRecs divided by the chunk count; a failed
allocation whose chunk is below MIN_IN_CORE_RECORDS is fatal, otherwise the
chunk count is incremented by one and allocation is retried.  The allocation
oracle says which chunk sizes calloc grants.  Returns the attempted chunk
sizes and, on success, the final chunk count and chunk size.  Fueled; with
fuel at least maxRecs + 2 - nc the fuel never runs out, and the fuel-zero
case performs one last attempt so that the fueled function agrees with the
loop on all reachable arguments. -/
def initAllocGo (allocOk : Nat → Bool) (maxRecs : Nat) :
    Nat → Nat → List Nat → List Nat × Option (Nat × Nat)
  | 0, nc, att =>
      if allocOk (maxRecs / nc) then (att ++ [maxRecs / nc], some (nc, maxRecs / nc))
      else (att ++ [maxRecs / nc], none)
  | fuel + 1, nc, att =>
      if allocOk (maxRecs / nc) then (att ++ [maxRecs / nc], some (nc, maxRecs / nc))
      else if maxRecs / nc < MIN_IN_CORE_RECORDS then (att ++ [maxRecs / nc], none)
      else initAllocGo allocOk maxRecs fuel (nc + 1) (att ++ [maxRecs / nc])

/-- State of the record-reading phase of sortRandom: the spilled runs (temp
files in creation order), the current buffer contents, the current capacity
(buffer_recs), the current ceiling (buffer_max_recs, which shrinks when a
grow fails), the growth chunk (buffer_chunk_recs), and the capacities the
buffer attempted to realloc to (instrumentation of the grow attempts at
rwsort.c line 993). -/
structure RandPhase where
  files : List (List Node)
  buf : List Node
  bufRecs : Nat
  bufMax : Nat
  chunk : Nat
  grows : List Nat
deriving DecidableEq, Inhabited

/-- Processing of one input record by sortRandom (rwsort.c lines 956-1028):
append to the buffer; when the buffer reaches its current capacity and the
capacity is below the ceiling, grow by one chunk - snapping to the ceiling
when within one further chunk of it (lines 984-987) - and on realloc
failure pin the ceiling to the current record count (lines 1000-1004); when
the record count reaches the ceiling, sort the buffer and spill it to a new
temp file (skTempFileWriteBuffer), resetting the buffer. -/
def fillStep (cmp : Node → Node → Int) (reallocOk : Nat → Bool) (st : RandPhase) (x : Node) :
    RandPhase :=
  let buf := st.buf ++ [x]
  if buf.length = st.bufRecs then
    let st1 :=
      if st.bufRecs < st.bufMax then
        let target :=
          if st.bufRecs + st.chunk + st.chunk > st.bufMax then st.bufMax
          else st.bufRecs + st.chunk
        if reallocOk target then
          { st with bufRecs := target, grows := st.grows ++ [target] }
        else
          { st with bufMax := buf.length, bufRecs := buf.length, grows := st.grows ++ [target] }
      else st
    if buf.length = st1.bufMax then
      { st1 with buf := [], files := st1.files ++ [sortBuf cmp buf] }
    else { st1 with buf := buf }
  else { st with buf := buf }

/-- Configuration and environment of an execution: the merge fanout
MAX_MERGE_FILES, the buffer ceiling in records (sort_buffer_size divided by
node_size, rwsort.c line 903), SORT_NUM_CHUNKS, the oracles for initial
allocation, realloc, temp-file opens, input opens and output writes, and the
fuel bounding loop iterations. -/
structure Cfg where
  M : Nat
  maxRecs : Nat
  nc0 : Nat
  allocOk : Nat → Bool
  reallocOk : Nat → Bool
  tOpen : Nat → OpenRes
  inOpen : Nat → OpenRes
  wr : Nat → WRes
  fuel : Nat

/-- The record-reading phase of sortRandom: initial allocation (none on a
fatal allocation failure), then every input record through fillStep. -/
def sortRandomPhase (cmp : Node → Node → Int) (cfg : Cfg) (nodes : List Node) :
    Option RandPhase :=
  match (initAllocGo cfg.allocOk cfg.maxRecs (cfg.maxRecs + 2) (numChunksInit cfg.nc0) []).2 with
  | none => none
  | some p =>
      some (nodes.foldl (fillStep cmp cfg.reallocOk)
        { files := [], buf := [], bufRecs := p.2, bufMax := cfg.maxRecs,
          chunk := p.2, grows := [] })

/-- Return value of the input-opening loop of sortPresorted (the switch at
rwsort.c lines 727-763): all inputs opened (appNextInput returned 1), a
resource failure (returned -2), an input error (returned -1), or the
MAX_MERGE_FILES limit was reached with inputs remaining (returned 0 with a
full table). -/
inductive InRv where
  | noMore
  | resource
  | ioErr
  | limit
deriving DecidableEq

/-- Modelled from the spec: appNextInput (declared in rwsort.h, not in the
snapshot) opens the next input stream in order; an open may fail with a
resource error (retried by a later pass, so the input cursor does not
advance) or another error (fatal).  This loop models rwsort.c lines
721-726: open up to MAX_MERGE_FILES inputs, returning how many opened and
why the loop stopped. -/
def inScanGo (nIn : Nat) (oracle : Nat → OpenRes) (inIdx : Nat) : Nat → Nat → Nat × InRv
  | c, 0 => (c, .limit)
  | c, slots + 1 =>
      if nIn ≤ inIdx + c then (c, .noMore)
      else
        match oracle (inIdx + c) with
        | .ok => inScanGo nIn oracle inIdx (c + 1) slots
        | .resErr => (c, .resource)
        | .otherErr => (c, .ioErr)

/-- State of the sortPresorted loop: the temp files created so far, the
index of the next input stream to open, the records written to the final
output, and the write-attempt counter. -/
structure PPhase where
  files : List (List Node)
  inIdx : Nat
  out : List Node
  wn : Nat
deriving DecidableEq

/-- Outcome of one pass of sortPresorted. -/
inductive PPassOut where
  | next (st : PPhase)
  | lastKeep (st : PPhase)
  | lastDirect (st : PPhase)
  | fatalErr (st : PPhase)
deriving DecidableEq

/-- One pass of sortPresorted (rwsort.c lines 709-861).  The pass creates an
intermediate temp file first (line 713), then opens up to MAX_MERGE_FILES
input streams.  When every remaining input opened and this is the first
pass (the intermediate has index 0) the intermediate is discarded and the
merged records go to the final output; in every other case - including the
pass that opens the last inputs after an earlier pass - the merged records
go to the intermediate, which is kept.  Streams that are empty contribute
no seed and are dropped (fillRecordAndKey returning 0 at lines 766-771);
the final drain at line 821 checks the heap-extract status, so an all-empty
pass writes nothing and is well defined. -/
def presortPass (cmp : Node → Node → Int) (mk : RwRec → Node) (inputs : List (List RwRec))
    (oracle : Nat → OpenRes) (wr : Nat → WRes) (M : Nat) (st : PPhase) : PPassOut :=
  let idxInt := st.files.length
  let files1 := st.files ++ [[]]
  let scan := inScanGo inputs.length oracle st.inIdx 0 M
  let c := scan.1
  let streams := (List.range' st.inIdx c).map (fun i => (inputs.getD i []).map mk)
  let seeded := streams.filter (fun r => !r.isEmpty)
  let merged := kmerge cmp seeded
  match scan.2 with
  | .ioErr => .fatalErr { st with files := files1 }
  | .noMore =>
      if idxInt = 0 then
        match writeAll wr st.wn merged with
        | none => .fatalErr { st with files := files1 }
        | some p =>
            .lastDirect { files := files1, inIdx := st.inIdx + c,
                          out := st.out ++ p.2, wn := p.1 }
      else
        .lastKeep { files := files1.set idxInt merged, inIdx := st.inIdx + c,
                    out := st.out, wn := st.wn }
  | .resource =>
      .next { files := files1.set idxInt merged, inIdx := st.inIdx + c,
              out := st.out, wn := st.wn }
  | .limit =>
      .next { files := files1.set idxInt merged, inIdx := st.inIdx + c,
              out := st.out, wn := st.wn }

/-- Overall outcome of the sortPresorted loop. -/
inductive PRunOut where
  | direct (st : PPhase)
  | keep (st : PPhase)
  | fatalP (st : PPhase)
  | fuelP (st : PPhase)
deriving DecidableEq

/-- The do-while loop of sortPresorted. -/
def presortRun (cmp : Node → Node → Int) (mk : RwRec → Node) (inputs : List (List RwRec))
    (oracle : Nat → OpenRes) (wr : Nat → WRes) (M : Nat) :
    Nat → PPhase → PRunOut
  | 0, st => .fuelP st
  | fuel + 1, st =>
      match presortPass cmp mk inputs oracle wr M st with
      | .next st' => presortRun cmp mk inputs oracle wr M fuel st'
      | .lastKeep st' => .keep st'
      | .lastDirect st' => .direct st'
      | .fatalErr st' => .fatalP st'

/-- Final observable result of an execution: the records on the output
stream, every temp file ever created (with its final contents), and the
temp-file indices removed. -/
structure RunRes where
  out : List Node
  files : List (List Node)
  deleted : List Nat
deriving DecidableEq

/-- Invocation of mergeFiles over temp files 0 through fs.length - 1 (the
call at rwsort.c line 1092). -/
def runMergePhase (cmp : Node → Node → Int) (cfg : Cfg) (fs : List (List Node))
    (out0 : List Node) (wn0 : Nat) : Outcome × RunRes :=
  let p := mergeRun cmp cfg.tOpen cfg.wr cfg.M cfg.fuel
      { files := fs, a := 0, last := fs.length - 1, deleted := [], out := out0, wn := wn0 }
  (p.1, { out := p.2.out, files := p.2.files, deleted := p.2.deleted })

/-- Model of main (rwsort.c lines 1079-1115): run sortPresorted or
sortRandom, then mergeFiles when temp files remain.  In the random path the
sole remaining in-memory run is written directly to the output when no temp
file was ever spilled (lines 1049-1068); when temps exist a non-empty final
buffer is spilled as the last run (lines 1031-1045) before merging. -/
def rwsortRun (K : List SortField) (rev : Bool) (extr : List (RwRec → List Nat)) (cfg : Cfg)
    (presorted : Bool) (inputs : List (List RwRec)) : Outcome × RunRes :=
  let cmp := rwrecCompare rev K
  if presorted then
    match presortRun cmp (mkNode extr) inputs cfg.inOpen cfg.wr cfg.M cfg.fuel
        { files := [], inIdx := 0, out := [], wn := 0 } with
    | .direct st => (.ok, { out := st.out, files := st.files, deleted := [] })
    | .keep st => runMergePhase cmp cfg st.files st.out st.wn
    | .fatalP st => (.fatalExit, { out := st.out, files := st.files, deleted := [] })
    | .fuelP st => (.noFuel, { out := st.out, files := st.files, deleted := [] })
  else
    match sortRandomPhase cmp cfg (inputs.flatten.map (mkNode extr)) with
    | none => (.fatalExit, { out := [], files := [], deleted := [] })
    | some ph =>
        if ph.buf = [] then
          if ph.files = [] then (.ok, { out := [], files := [], deleted := [] })
          else runMergePhase cmp cfg ph.files [] 0
        else if ph.files = [] then
          match writeAll cfg.wr 0 (sortBuf cmp ph.buf) with
          | none => (.fatalExit, { out := [], files := [], deleted := [] })
          | some p => (.ok, { out := p.2, files := [], deleted := [] })
        else runMergePhase cmp cfg (ph.files ++ [sortBuf cmp ph.buf]) [] 0


/-! Concrete records, key configurations and environments used by the
witness executions. -/

/-- A record whose start time is v and whose other fields are zero. -/
def rec0 (v : Nat) : RwRec :=
  { sip := 0, dip := 0, nhip := 0, sport := 0, dport := 0, proto := 0, pkts := 0,
    bytes := 0, flags := 0, stime := v, elapsed := 0, sid := 0, nicIn := 0, nicOut := 0,
    initFlags := 0, restFlags := 0, tcpState := 0, app := 0, ftype := 0, icmpType := 0,
    icmpCode := 0, isICMP := false }

/-- The node of rec0 v under an empty plug-in list. -/
def nd (v : Nat) : Node := mkNode [] (rec0 v)

/-- Sorting by start time only, ascending. -/
def cmpW : Node → Node → Int := rwrecCompare false [SortField.stime]

/-- Environment in which every resource request succeeds. -/
def cfgAllOk : Cfg :=
  { M := 4, maxRecs := 16, nc0 := 1, allocOk := fun _ => true, reallocOk := fun _ => true,
    tOpen := fun _ => OpenRes.ok, inOpen := fun _ => OpenRes.ok, wr := fun _ => WRes.ok,
    fuel := 8 }

/-- Environment whose first output write reports a retryable error. -/
def cfgDropWrite : Cfg :=
  { cfgAllOk with wr := fun n => if n = 0 then WRes.retryErr else WRes.ok }

/-- Environment for the growth trace: ceiling 9 records in 4 initial chunks,
so the buffer starts at 2 records and grows by chunks of 2. -/
def cfgGrow : Cfg :=
  { cfgAllOk with maxRecs := 9, nc0 := 4 }

/-- Environment with merge fanout 2. -/
def cfgFan2 : Cfg :=
  { cfgAllOk with M := 2 }

/-- A run-buffer state one record short of a full 2-record buffer, with
ceiling 5 and chunk 1. -/
def phW : RandPhase :=
  { files := [], buf := [nd 1], bufRecs := 2, bufMax := 5, chunk := 1, grows := [] }

/-- A merge state holding two one-record temp files. -/
def mstW : MState :=
  { files := [[nd 1], [nd 2]], a := 0, last := 1, deleted := [], out := [], wn := 0 }

/-- The state mergePass reaches from mstW with fanout 4: both files consumed
and deleted, their records written to the final output. -/
def mstW2 : MState :=
  { files := [[nd 1], [nd 2], []], a := 2, last := 1, deleted := [0, 1],
    out := [nd 1, nd 2], wn := 2 }

/-- A merge state holding three one-record temp files. -/
def mst7 : MState :=
  { files := [[nd 3], [nd 1], [nd 2]], a := 0, last := 2, deleted := [], out := [], wn := 0 }

/-- The state mergePass reaches from mst7 with fanout 2: files 0 and 1
merged into the intermediate (index 3) and deleted. -/
def mst7b : MState :=
  { files := [[nd 3], [nd 1], [nd 2], [nd 1, nd 3]], a := 2, last := 3, deleted := [0, 1],
    out := [], wn := 0 }

/-! Comparator theory: the configured comparator is sign-antisymmetric and
its non-strict order is total and transitive whenever every plug-in
comparator is well behaved.  The four helper lemmas are stated for an
arbitrary comparator on an arbitrary type so that they serve both the
per-field comparators and the composite one. -/

theorem cmpSelfZero {a : Type u} (c : a → a → Int) (ha : ∀ x y, c x y = -c y x) (x : a) :
    c x x = 0 := by
  have := ha x x; omega

theorem cmpEqTrans {a : Type u} (c : a → a → Int) (ha : ∀ x y, c x y = -c y x)
    (ht : ∀ x y z, c x y ≤ 0 → c y z ≤ 0 → c x z ≤ 0) (x y z : a)
    (h1 : c x y = 0) (h2 : c y z = 0) : c x z = 0 := by
  have l1 : c x z ≤ 0 := ht x y z (by omega) (by omega)
  have hzy : c z y = 0 := by have := ha y z; omega
  have hyx : c y x = 0 := by have := ha x y; omega
  have l2 : c z x ≤ 0 := ht z y x (by omega) (by omega)
  have := ha x z; omega

theorem cmpLtEq {a : Type u} (c : a → a → Int) (ha : ∀ x y, c x y = -c y x)
    (ht : ∀ x y z, c x y ≤ 0 → c y z ≤ 0 → c x z ≤ 0) (x y z : a)
    (h1 : c x y < 0) (h2 : c y z = 0) : c x z < 0 := by
  have l1 : c x z ≤ 0 := ht x y z (by omega) (by omega)
  rcases lt_or_eq_of_le l1 with h | h
  · exact h
  · exfalso
    have hzx : c z x = 0 := by have := ha x z; omega
    have l2 : c y x ≤ 0 := ht y z x (by omega) (by omega)
    have := ha x y; omega

theorem cmpEqLt {a : Type u} (c : a → a → Int) (ha : ∀ x y, c x y = -c y x)
    (ht : ∀ x y z, c x y ≤ 0 → c y z ≤ 0 → c x z ≤ 0) (x y z : a)
    (h1 : c x y = 0) (h2 : c y z < 0) : c x z < 0 := by
  have l1 : c x z ≤ 0 := ht x y z (by omega) (by omega)
  rcases lt_or_eq_of_le l1 with h | h
  · exact h
  · exfalso
    have hzx : c z x = 0 := by have := ha x z; omega
    have l2 : c z y ≤ 0 := ht z x y (by omega) (by omega)
    have := ha y z; omega

theorem cmpLtLt {a : Type u} (c : a → a → Int) (ha : ∀ x y, c x y = -c y x)
    (ht : ∀ x y z, c x y ≤ 0 → c y z ≤ 0 → c x z ≤ 0) (x y z : a)
    (h1 : c x y < 0) (h2 : c y z < 0) : c x z < 0 := by
  have l1 : c x z ≤ 0 := ht x y z (by omega) (by omega)
  rcases lt_or_eq_of_le l1 with h | h
  · exact h
  · exfalso
    have hzx : c z x = 0 := by have := ha x z; omega
    have l2 : c z y ≤ 0 := ht z x y (by omega) (by omega)
    have := ha y z; omega

theorem natCmp_antisym (x y : Nat) : natCmp x y = -natCmp y x := by
  unfold natCmp; split_ifs <;> omega

theorem natCmp_le (x y : Nat) : natCmp x y ≤ 0 ↔ x ≤ y := by
  unfold natCmp; split_ifs <;> constructor <;> intro h <;> omega

theorem fieldCompare_antisym (f : SortField) (hf : fieldOk f) (x y : Node) :
    fieldCompare f x y = -(fieldCompare f y x) := by
  cases f <;> first
  | exact natCmp_antisym _ _
  | exact hf.1 _ _

theorem fieldCompare_le_trans (f : SortField) (hf : fieldOk f) (x y z : Node)
    (h1 : fieldCompare f x y ≤ 0) (h2 : fieldCompare f y z ≤ 0) : fieldCompare f x z ≤ 0 := by
  cases f <;> first
  | { simp only [fieldCompare, natCmp_le] at h1 h2 ⊢; omega }
  | exact hf.2 _ _ _ h1 h2

theorem KOk.head {f : SortField} {fs : List SortField} (h : KOk (f :: fs)) : fieldOk f :=
  h f (List.mem_cons_self f fs)

theorem KOk.tail {f : SortField} {fs : List SortField} (h : KOk (f :: fs)) : KOk fs :=
  fun g hg => h g (List.mem_cons_of_mem f hg)

theorem rwrecCompare_rev_neg (K : List SortField) (x y : Node) :
    rwrecCompare true K x y = -(rwrecCompare false K x y) := by
  induction K with
  | nil => simp [rwrecCompare]
  | cons f fs ih =>
      by_cases h : fieldCompare f x y = 0 <;> simp [rwrecCompare, h, ih]

theorem rwrecCompare_antisym (rev : Bool) (K : List SortField) (hK : KOk K) (x y : Node) :
    rwrecCompare rev K x y = -(rwrecCompare rev K y x) := by
  induction K with
  | nil => simp [rwrecCompare]
  | cons f fs ih =>
      have hf := hK.head
      by_cases h : fieldCompare f x y = 0
      · have h' : fieldCompare f y x = 0 := by
          have := fieldCompare_antisym f hf x y; omega
        simp [rwrecCompare, h, h', ih hK.tail]
      · have h' : fieldCompare f y x ≠ 0 := by
          have := fieldCompare_antisym f hf x y; omega
        have e := fieldCompare_antisym f hf x y
        cases rev <;> simp [rwrecCompare, h, h'] <;> omega

theorem rwrecCompare_le_trans_false (K : List SortField) (hK : KOk K) (x y z : Node)
    (h1 : rwrecCompare false K x y ≤ 0) (h2 : rwrecCompare false K y z ≤ 0) :
    rwrecCompare false K x z ≤ 0 := by
  induction K with
  | nil => simp [rwrecCompare]
  | cons f fs ih =>
      have hf := hK.head
      have ha := fun x y => fieldCompare_antisym f hf x y
      have ht := fun x y z => fieldCompare_le_trans f hf x y z
      by_cases hu : fieldCompare f x y = 0 <;> by_cases hv : fieldCompare f y z = 0
      · have hw : fieldCompare f x z = 0 := cmpEqTrans _ ha ht x y z hu hv
        simp only [rwrecCompare, hu, hv, hw, if_true, Bool.false_eq_true, if_false] at h1 h2 ⊢
        exact ih hK.tail h1 h2
      · simp only [rwrecCompare, hu, hv, if_true, if_false, Bool.false_eq_true] at h1 h2 ⊢
        have hv' : fieldCompare f y z < 0 := lt_of_le_of_ne h2 hv
        have hw : fieldCompare f x z < 0 := cmpEqLt _ ha ht x y z hu hv'
        simp [Int.ne_of_lt hw, hw, le_of_lt hw]
      · simp only [rwrecCompare, hu, hv, if_true, if_false, Bool.false_eq_true] at h1 h2 ⊢
        have hu' : fieldCompare f x y < 0 := lt_of_le_of_ne h1 hu
        have hw : fieldCompare f x z < 0 := cmpLtEq _ ha ht x y z hu' hv
        simp [Int.ne_of_lt hw, hw, le_of_lt hw]
      · simp only [rwrecCompare, hu, hv, if_true, if_false, Bool.false_eq_true] at h1 h2 ⊢
        have hu' : fieldCompare f x y < 0 := lt_of_le_of_ne h1 hu
        have hv' : fieldCompare f y z < 0 := lt_of_le_of_ne h2 hv
        have hw : fieldCompare f x z < 0 := cmpLtLt _ ha ht x y z hu' hv'
        simp [Int.ne_of_lt hw, hw, le_of_lt hw]

theorem rwrecCompareOk (rev : Bool) (K : List SortField) (hK : KOk K) :
    CmpOk (rwrecCompare rev K) := by
  refine ⟨rwrecCompare_antisym rev K hK, ?_⟩
  intro x y z h1 h2
  cases rev
  · exact rwrecCompare_le_trans_false K hK x y z h1 h2
  · rw [rwrecCompare_rev_neg] at h1 h2 ⊢
    have hba : rwrecCompare false K y x ≤ 0 := by
      have := rwrecCompare_antisym false K hK x y; omega
    have hcb : rwrecCompare false K z y ≤ 0 := by
      have := rwrecCompare_antisym false K hK y z; omega
    have := rwrecCompare_le_trans_false K hK z y x hcb hba
    have := rwrecCompare_antisym false K hK x z; omega

theorem CmpOk.le_total {cmp : Node → Node → Int} (hc : CmpOk cmp) (x y : Node) :
    cmp x y ≤ 0 ∨ cmp y x ≤ 0 := by
  have := hc.1 x y; omega

theorem CmpOk.le_refl {cmp : Node → Node → Int} (hc : CmpOk cmp) (x : Node) :
    cmp x x ≤ 0 := by
  have := cmpSelfZero cmp hc.1 x; omega

/-! Insertion-sort lemmas for sortBuf. -/

theorem insertNode_perm (cmp : Node → Node → Int) (x : Node) (l : List Node) :
    List.Perm (insertNode cmp x l) (x :: l) := by
  induction l with
  | nil => simp [insertNode]
  | cons y ys ih =>
      by_cases h : cmp x y ≤ 0
      · simp [insertNode, h]
      · simp only [insertNode, h, if_false]
        exact ((ih.cons y).trans (List.Perm.swap x y ys))

theorem sortBuf_perm (cmp : Node → Node → Int) (l : List Node) :
    List.Perm (sortBuf cmp l) l := by
  induction l with
  | nil => simp [sortBuf]
  | cons x xs ih =>
      have : sortBuf cmp (x :: xs) = insertNode cmp x (sortBuf cmp xs) := rfl
      rw [this]
      exact (insertNode_perm cmp x (sortBuf cmp xs)).trans (ih.cons x)

theorem insertNode_pairwise {cmp : Node → Node → Int} (hc : CmpOk cmp) (x : Node)
    {l : List Node} (hl : l.Pairwise (leOf cmp)) :
    (insertNode cmp x l).Pairwise (leOf cmp) := by
  induction l with
  | nil => simp [insertNode, List.pairwise_cons]
  | cons y ys ih =>
      obtain ⟨hy, hys⟩ := List.pairwise_cons.mp hl
      by_cases h : cmp x y ≤ 0
      · simp only [insertNode, h, if_true]
        refine List.pairwise_cons.mpr ⟨?_, hl⟩
        intro z hz
        rcases List.mem_cons.mp hz with rfl | hz
        · exact h
        · exact hc.2 x y z h (hy z hz)
      · simp only [insertNode, h, if_false]
        refine List.pairwise_cons.mpr ⟨?_, ih hys⟩
        intro z hz
        have hz' := (insertNode_perm cmp x ys).mem_iff.mp hz
        rcases List.mem_cons.mp hz' with rfl | hz'
        · rcases hc.le_total z y with h' | h'
          · exact absurd h' h
          · exact h'
        · exact hy z hz'

theorem sortBuf_pairwise {cmp : Node → Node → Int} (hc : CmpOk cmp) (l : List Node) :
    (sortBuf cmp l).Pairwise (leOf cmp) := by
  induction l with
  | nil => simp [sortBuf]
  | cons x xs ih => exact insertNode_pairwise hc x ih


/-! Lemmas on the k-way merge: the merged stream is a permutation of the
union of the runs, and it is sorted when every run is sorted and the
comparator is well behaved. -/

theorem totalLen_cons (r : List Node) (rs : List (List Node)) :
    totalLen (r :: rs) = r.length + totalLen rs := by
  simp [totalLen]

theorem totalLen_perm {a b : List (List Node)} (h : List.Perm a b) :
    totalLen a = totalLen b :=
  (h.map List.length).sum_eq

theorem extractMin_perm (cmp : Node → Node → Int) (best : List Node) (rs : List (List Node)) :
    List.Perm ((extractMin cmp best rs).1 :: (extractMin cmp best rs).2) (best :: rs) := by
  induction rs generalizing best with
  | nil => simp [extractMin]
  | cons r rs ih =>
      by_cases h : cmp (hd0 r) (hd0 best) < 0
      · simp only [extractMin, h, if_true]
        exact (List.Perm.swap best (extractMin cmp r rs).1 (extractMin cmp r rs).2).trans
          ((ih r).cons best)
      · simp only [extractMin, h, if_false]
        exact (List.Perm.swap r (extractMin cmp best rs).1 (extractMin cmp best rs).2).trans
          (((ih best).cons r).trans (List.Perm.swap best r rs))

theorem extractMin_mem (cmp : Node → Node → Int) (best : List Node) (rs : List (List Node)) :
    (extractMin cmp best rs).1 ∈ best :: rs :=
  (extractMin_perm cmp best rs).mem_iff.mp (List.mem_cons_self _ _)

theorem extractMin_min {cmp : Node → Node → Int} (hc : CmpOk cmp) (best : List Node)
    (rs : List (List Node)) :
    ∀ r' ∈ best :: rs, cmp (hd0 (extractMin cmp best rs).1) (hd0 r') ≤ 0 := by
  induction rs generalizing best with
  | nil =>
      intro r' hr'
      rcases List.mem_cons.mp hr' with rfl | hr'
      · exact hc.le_refl _
      · simp at hr'
  | cons r rs ih =>
      intro r' hr'
      by_cases h : cmp (hd0 r) (hd0 best) < 0
      · simp only [extractMin, h, if_true]
        rcases List.mem_cons.mp hr' with rfl | hr'
        · exact hc.2 _ _ _ (ih r r (List.mem_cons_self _ _)) (le_of_lt h)
        · exact ih r r' hr'
      · simp only [extractMin, h, if_false]
        rcases List.mem_cons.mp hr' with rfl | hr''
        · exact ih _ _ (List.mem_cons_self _ _)
        · rcases List.mem_cons.mp hr'' with rfl | hr''
          · have hbr : cmp (hd0 best) (hd0 r') ≤ 0 := by
              have := hc.1 (hd0 r') (hd0 best); omega
            exact hc.2 _ _ _ (ih _ _ (List.mem_cons_self _ _)) hbr
          · exact ih _ _ (List.mem_cons_of_mem _ hr'')

theorem kmergeAux_perm (cmp : Node → Node → Int) :
    ∀ (fuel : Nat) (rss : List (List Node)), (∀ r ∈ rss, r ≠ []) → totalLen rss ≤ fuel →
      List.Perm (kmergeAux cmp fuel rss) rss.flatten := by
  intro fuel
  induction fuel with
  | zero => intro rss _ _; exact List.Perm.refl _
  | succ fuel ih =>
      intro rss hne hlen
      match rss with
      | [] => simp [kmergeAux]
      | [r] => simp [kmergeAux]
      | r :: r2 :: rs =>
          rcases hem : extractMin cmp r (r2 :: rs) with ⟨m, rest⟩
          cases m with
          | nil =>
              exfalso
              have hmem : ([] : List Node) ∈ r :: r2 :: rs := by
                have := extractMin_mem cmp r (r2 :: rs); rw [hem] at this; exact this
              exact (hne [] hmem) rfl
          | cons x xs =>
              have hperm0 : List.Perm ((x :: xs) :: rest) (r :: r2 :: rs) := by
                have := extractMin_perm cmp r (r2 :: rs); rw [hem] at this; exact this
              simp only [kmergeAux, hem]
              have hL : xs.length + 1 + totalLen rest = totalLen (r :: r2 :: rs) := by
                rw [← totalLen_perm hperm0, totalLen_cons, List.length_cons]
              have hne' : ∀ r' ∈ (if xs = [] then rest else xs :: rest), r' ≠ [] := by
                intro r' hr'
                by_cases hxs : xs = []
                · simp only [hxs, if_true] at hr'
                  exact hne r' (hperm0.mem_iff.mp (List.mem_cons_of_mem _ hr'))
                · simp only [hxs, if_false] at hr'
                  rcases List.mem_cons.mp hr' with rfl | hr'
                  · exact hxs
                  · exact hne r' (hperm0.mem_iff.mp (List.mem_cons_of_mem _ hr'))
              have hlen' : totalLen (if xs = [] then rest else xs :: rest) ≤ fuel := by
                by_cases hxs : xs = []
                · have hxe : xs.length = 0 := by simp [hxs]
                  simp only [hxs, if_true]
                  omega
                · simp only [hxs, if_false, totalLen_cons]
                  omega
              have hrec := ih _ hne' hlen'
              have hflat : List.Perm (x :: (xs ++ rest.flatten)) (r :: r2 :: rs).flatten := by
                have h2 := hperm0.flatten
                simpa using h2
              refine (hrec.cons x).trans (List.Perm.trans ?_ hflat)
              by_cases hxs : xs = []
              · subst hxs
                simp
              · simp [hxs]

theorem kmergeAux_pairwise {cmp : Node → Node → Int} (hc : CmpOk cmp) :
    ∀ (fuel : Nat) (rss : List (List Node)), (∀ r ∈ rss, r ≠ []) →
      (∀ r ∈ rss, r.Pairwise (leOf cmp)) → totalLen rss ≤ fuel →
      (kmergeAux cmp fuel rss).Pairwise (leOf cmp) := by
  intro fuel
  induction fuel with
  | zero =>
      intro rss hne hs hlen
      match rss with
      | [] => simp [kmergeAux]
      | r :: rs =>
          exfalso
          have h1 : r ≠ [] := hne r (List.mem_cons_self _ _)
          have h2 : r.length ≠ 0 := by simpa [List.length_eq_zero] using h1
          rw [totalLen_cons] at hlen
          omega
  | succ fuel ih =>
      intro rss hne hs hlen
      match rss with
      | [] => simp [kmergeAux]
      | [r] => simpa [kmergeAux] using hs r (List.mem_cons_self _ _)
      | r :: r2 :: rs =>
          rcases hem : extractMin cmp r (r2 :: rs) with ⟨m, rest⟩
          cases m with
          | nil =>
              exfalso
              have hmem : ([] : List Node) ∈ r :: r2 :: rs := by
                have := extractMin_mem cmp r (r2 :: rs); rw [hem] at this; exact this
              exact (hne [] hmem) rfl
          | cons x xs =>
              have hperm0 : List.Perm ((x :: xs) :: rest) (r :: r2 :: rs) := by
                have := extractMin_perm cmp r (r2 :: rs); rw [hem] at this; exact this
              have hmem : (x :: xs) ∈ r :: r2 :: rs := by
                have := extractMin_mem cmp r (r2 :: rs); rw [hem] at this; exact this
              have hmin : ∀ r' ∈ r :: r2 :: rs, cmp x (hd0 r') ≤ 0 := by
                have h0 := extractMin_min hc r (r2 :: rs)
                rw [hem] at h0
                simpa [hd0] using h0
              simp only [kmergeAux, hem]
              have hL : xs.length + 1 + totalLen rest = totalLen (r :: r2 :: rs) := by
                rw [← totalLen_perm hperm0, totalLen_cons, List.length_cons]
              have hmsorted : (x :: xs).Pairwise (leOf cmp) := hs _ hmem
              have hne' : ∀ r' ∈ (if xs = [] then rest else xs :: rest), r' ≠ [] := by
                intro r' hr'
                by_cases hxs : xs = []
                · simp only [hxs, if_true] at hr'
                  exact hne r' (hperm0.mem_iff.mp (List.mem_cons_of_mem _ hr'))
                · simp only [hxs, if_false] at hr'
                  rcases List.mem_cons.mp hr' with rfl | hr'
                  · exact hxs
                  · exact hne r' (hperm0.mem_iff.mp (List.mem_cons_of_mem _ hr'))
              have hs' : ∀ r' ∈ (if xs = [] then rest else xs :: rest),
                  r'.Pairwise (leOf cmp) := by
                intro r' hr'
                by_cases hxs : xs = []
                · simp only [hxs, if_true] at hr'
                  exact hs r' (hperm0.mem_iff.mp (List.mem_cons_of_mem _ hr'))
                · simp only [hxs, if_false] at hr'
                  rcases List.mem_cons.mp hr' with rfl | hr'
                  · exact (List.pairwise_cons.mp hmsorted).2
                  · exact hs r' (hperm0.mem_iff.mp (List.mem_cons_of_mem _ hr'))
              have hlen' : totalLen (if xs = [] then rest else xs :: rest) ≤ fuel := by
                by_cases hxs : xs = []
                · have hxe : xs.length = 0 := by simp [hxs]
                  simp only [hxs, if_true]
                  omega
                · simp only [hxs, if_false, totalLen_cons]
                  omega
              refine List.pairwise_cons.mpr ⟨?_, ih _ hne' hs' hlen'⟩
              intro y hy
              have hy' : y ∈ (if xs = [] then rest else xs :: rest).flatten :=
                (kmergeAux_perm cmp fuel _ hne' hlen').mem_iff.mp hy
              obtain ⟨run, hrun, hyrun⟩ := List.mem_flatten.mp hy'
              have hxle : ∀ run' ∈ rest, y ∈ run' → leOf cmp x y := by
                intro run' hrun' hyr
                have hrun'' : run' ∈ r :: r2 :: rs :=
                  hperm0.mem_iff.mp (List.mem_cons_of_mem _ hrun')
                have hne'' : run' ≠ [] := hne run' hrun''
                cases run' with
                | nil => exact absurd rfl hne''
                | cons h' t' =>
                    have hxh : cmp x h' ≤ 0 := by
                      have := hmin _ hrun''
                      simpa [hd0] using this
                    rcases List.mem_cons.mp hyr with rfl | hyt
                    · exact hxh
                    · have hht : leOf cmp h' y :=
                        (List.pairwise_cons.mp (hs _ hrun'')).1 y hyt
                      exact hc.2 _ _ _ hxh hht
              by_cases hxs : xs = []
              · simp only [hxs, if_true] at hrun
                exact hxle run hrun hyrun
              · simp only [hxs, if_false] at hrun
                rcases List.mem_cons.mp hrun with rfl | hrun
                · exact (List.pairwise_cons.mp hmsorted).1 y hyrun
                · exact hxle run hrun hyrun

theorem kmerge_perm (cmp : Node → Node → Int) (rss : List (List Node))
    (hne : ∀ r ∈ rss, r ≠ []) : List.Perm (kmerge cmp rss) rss.flatten :=
  kmergeAux_perm cmp (totalLen rss) rss hne le_rfl

theorem kmerge_pairwise {cmp : Node → Node → Int} (hc : CmpOk cmp) (rss : List (List Node))
    (hne : ∀ r ∈ rss, r ≠ []) (hs : ∀ r ∈ rss, r.Pairwise (leOf cmp)) :
    (kmerge cmp rss).Pairwise (leOf cmp) :=
  kmergeAux_pairwise hc (totalLen rss) rss hne hs le_rfl


/-! Lemmas on the output-writer model. -/

theorem writeAll_sublist (wr : Nat → WRes) :
    ∀ (xs : List Node) (wn : Nat) (p : Nat × List Node),
      writeAll wr wn xs = some p → List.Sublist p.2 xs := by
  intro xs
  induction xs with
  | nil =>
      intro wn p h
      simp only [writeAll, Option.some.injEq] at h
      rw [← h]
  | cons x xs ih =>
      intro wn p h
      simp only [writeAll] at h
      cases hw : wr wn <;> rw [hw] at h
      · cases hrec : writeAll wr (wn + 1) xs <;> rw [hrec] at h
        · simp at h
        · simp only [Option.some.injEq] at h
          rw [← h]
          exact (ih (wn + 1) _ hrec).cons₂ x
      · exact (ih (wn + 1) p h).cons x
      · simp at h

theorem writeAll_allOk (wr : Nat → WRes) (h : ∀ n, wr n = WRes.ok) :
    ∀ (xs : List Node) (wn : Nat), writeAll wr wn xs = some (wn + xs.length, xs) := by
  intro xs
  induction xs with
  | nil => intro wn; simp [writeAll]
  | cons x xs ih =>
      intro wn
      have he : wn + 1 + xs.length = wn + (x :: xs).length := by
        simp only [List.length_cons]; omega
      simp only [writeAll, h wn, ih (wn + 1), he]

/-! Lemmas on range' decompositions and list indexing. -/

theorem range'_append_inv :
    ∀ (pre post : List Nat) (a n : Nat), pre ++ post = List.range' a n →
      pre = List.range' a pre.length ∧ pre.length ≤ n ∧
        post = List.range' (a + pre.length) (n - pre.length) := by
  intro pre
  induction pre with
  | nil =>
      intro post a n h
      simpa using h
  | cons p pre ih =>
      intro post a n h
      match n with
      | 0 => simp [List.range'] at h
      | n + 1 =>
          rw [List.range'_succ a n 1] at h
          simp only [List.cons_append, List.cons.injEq] at h
          obtain ⟨rfl, h2⟩ := h
          obtain ⟨e1, e2, e3⟩ := ih post (p + 1) n h2
          refine ⟨?_, by simp only [List.length_cons]; omega, ?_⟩
          · rw [List.length_cons, List.range'_succ p pre.length 1]
            exact congrArg (p :: ·) e1
          · rw [List.length_cons, e3]
            congr 1 <;> omega

theorem getD_append_lt (l1 l2 : List (List Node)) (i : Nat) (d : List Node)
    (h : i < l1.length) : (l1 ++ l2).getD i d = l1.getD i d := by
  simp [List.getD_eq_getElem?_getD, List.getElem?_append_left, h]

theorem getD_set_self (l : List (List Node)) (i : Nat) (x d : List Node)
    (h : i < l.length) : (l.set i x).getD i d = x := by
  simp [List.getD_eq_getElem?_getD, List.getElem?_set_self, h]

theorem getD_set_ne (l : List (List Node)) (i j : Nat) (x d : List Node)
    (h : i ≠ j) : (l.set i x).getD j d = l.getD j d := by
  simp [List.getD_eq_getElem?_getD, List.getElem?_set_ne h]


/-! Lemmas on seedsOf and the reader-opening loop. -/

theorem seedsOf_nil (files : List (List Node)) : seedsOf files [] = [] := rfl

theorem seedsOf_cons (files : List (List Node)) (j : Nat) (idxs : List Nat) :
    seedsOf files (j :: idxs) =
      if files.getD j [] = [] then seedsOf files idxs
      else files.getD j [] :: seedsOf files idxs := by
  by_cases h : files.getD j [] = [] <;>
    simp [seedsOf, List.filter_cons, h]

theorem seedsOf_mem (files : List (List Node)) (idxs : List Nat) {r : List Node}
    (h : r ∈ seedsOf files idxs) : r ≠ [] ∧ ∃ j ∈ idxs, r = files.getD j [] := by
  have h1 := List.mem_of_mem_filter h
  have h2 := List.of_mem_filter h
  constructor
  · intro hr
    rw [hr] at h2
    simp at h2
  · obtain ⟨j, hj, hjr⟩ := List.mem_map.mp h1
    exact ⟨j, hj, hjr.symm⟩

theorem seedsOf_flatten (files : List (List Node)) :
    ∀ idxs : List Nat, (seedsOf files idxs).flatten =
      ((idxs.map (fun j => files.getD j [])).flatten) := by
  intro idxs
  induction idxs with
  | nil => simp [seedsOf]
  | cons j idxs ih =>
      rw [seedsOf_cons]
      by_cases h : files.getD j [] = []
      · rw [if_pos h]
        simp only [List.map_cons, List.flatten_cons, ih, h, List.nil_append]
      · rw [if_neg h]
        simp only [List.map_cons, List.flatten_cons, ih]

theorem openScan_inv (files : List (List Node)) (oracle : Nat → OpenRes) :
    ∀ (idxs : List Nat) (seen : Bool) (s : List (List Node)) (c k : Nat) (t : Bool),
      openScan files oracle idxs seen = OpenOut.done s c k t →
      ∃ pre post, idxs = pre ++ post ∧ (∀ i ∈ pre, oracle i = OpenRes.ok) ∧
        s = seedsOf files pre ∧ c = pre.length ∧ k = pre.length ∧
        ((t = false ∧ post = []) ∨
          (t = true ∧ ∃ j post2, post = j :: post2 ∧ oracle j = OpenRes.resErr)) := by
  intro idxs
  induction idxs with
  | nil =>
      intro seen s c k t h
      simp only [openScan, OpenOut.done.injEq] at h
      obtain ⟨rfl, rfl, rfl, rfl⟩ := h
      exact ⟨[], [], by simp, by simp, by simp [seedsOf], by simp, by simp,
        Or.inl ⟨rfl, rfl⟩⟩
  | cons j rest ih =>
      intro seen s c k t h
      simp only [openScan] at h
      cases ho : oracle j <;> rw [ho] at h
      · cases hrec : openScan files oracle rest (seen || !(files.getD j []).isEmpty) <;>
          rw [hrec] at h
        case done s2 c2 k2 t2 =>
            simp only [OpenOut.done.injEq] at h
            obtain ⟨rfl, rfl, rfl, rfl⟩ := h
            obtain ⟨pre, post, e1, e2, e3, e4, e5, e6⟩ := ih _ s2 c2 k2 t2 hrec
            refine ⟨j :: pre, post, by simp [e1], ?_, ?_, by simp [e4], by simp [e5], e6⟩
            · intro i hi
              rcases List.mem_cons.mp hi with rfl | hi
              · exact ho
              · exact e2 i hi
            · rw [seedsOf_cons, e3]
        case fatal => simp at h
      · by_cases hseen : seen = true
        · rw [hseen] at h
          simp only [if_true, OpenOut.done.injEq] at h
          obtain ⟨rfl, rfl, rfl, rfl⟩ := h
          exact ⟨[], j :: rest, by simp, by simp, by simp [seedsOf], by simp, by simp,
            Or.inr ⟨rfl, j, rest, rfl, ho⟩⟩
        · have hseen' : seen = false := by
            cases seen
            · rfl
            · exact absurd rfl hseen
          rw [hseen'] at h
          simp at h
      · simp at h

theorem openScan_all_ok (files : List (List Node)) (oracle : Nat → OpenRes) :
    ∀ (idxs : List Nat) (seen : Bool), (∀ i ∈ idxs, oracle i = OpenRes.ok) →
      openScan files oracle idxs seen =
        OpenOut.done (seedsOf files idxs) idxs.length idxs.length false := by
  intro idxs
  induction idxs with
  | nil => intro seen _; simp [openScan, seedsOf]
  | cons j rest ih =>
      intro seen hok
      have hj : oracle j = OpenRes.ok := hok j (List.mem_cons_self _ _)
      have hrest : ∀ i ∈ rest, oracle i = OpenRes.ok :=
        fun i hi => hok i (List.mem_cons_of_mem _ hi)
      simp only [openScan, hj, ih _ hrest, seedsOf_cons, List.length_cons]

theorem openScan_truncate (files : List (List Node)) (oracle : Nat → OpenRes) :
    ∀ (pre : List Nat) (j : Nat) (post : List Nat) (seen : Bool),
      (∀ i ∈ pre, oracle i = OpenRes.ok) → oracle j = OpenRes.resErr →
      (seen = true ∨ seedsOf files pre ≠ []) →
      openScan files oracle (pre ++ j :: post) seen =
        OpenOut.done (seedsOf files pre) pre.length pre.length true := by
  intro pre
  induction pre with
  | nil =>
      intro j post seen _ hj hseen
      have hs : seen = true := by
        rcases hseen with h | h
        · exact h
        · exact absurd rfl h
      simp [openScan, hj, hs, seedsOf]
  | cons i pre ih =>
      intro j post seen hok hj hseen
      have hi : oracle i = OpenRes.ok := hok i (List.mem_cons_self _ _)
      have hpre : ∀ i2 ∈ pre, oracle i2 = OpenRes.ok :=
        fun i2 hi2 => hok i2 (List.mem_cons_of_mem _ hi2)
      have hstep : (seen || !(files.getD i []).isEmpty) = true ∨ seedsOf files pre ≠ [] := by
        by_cases hemp : files.getD i [] = []
        · rcases hseen with h | h
          · left; simp [h]
          · right
            rw [seedsOf_cons, if_pos hemp] at h
            exact h
        · left
          have hf : (files.getD i []).isEmpty = false := by
            cases hv : files.getD i [] with
            | nil => exact absurd hv hemp
            | cons y ys => rfl
          rw [hf]
          simp only [Bool.not_false, Bool.or_true]
      have hihx := ih j post (seen || !(files.getD i []).isEmpty) hpre hj hstep
      rw [List.cons_append]
      generalize hG : pre ++ j :: post = L at hihx ⊢
      simp only [openScan, hi, hihx, seedsOf_cons, List.length_cons]

theorem openScan_fatal_res (files : List (List Node)) (oracle : Nat → OpenRes) :
    ∀ (pre : List Nat) (j : Nat) (post : List Nat),
      (∀ i ∈ pre, oracle i = OpenRes.ok) → oracle j = OpenRes.resErr →
      (∀ i ∈ pre, files.getD i [] = []) →
      openScan files oracle (pre ++ j :: post) false = OpenOut.fatal pre.length := by
  intro pre
  induction pre with
  | nil =>
      intro j post _ hj _
      simp [openScan, hj]
  | cons i pre ih =>
      intro j post hok hj hemp
      have hi : oracle i = OpenRes.ok := hok i (List.mem_cons_self _ _)
      have hpre : ∀ i2 ∈ pre, oracle i2 = OpenRes.ok :=
        fun i2 hi2 => hok i2 (List.mem_cons_of_mem _ hi2)
      have hie : files.getD i [] = [] := hemp i (List.mem_cons_self _ _)
      have hprem : ∀ i2 ∈ pre, files.getD i2 [] = [] :=
        fun i2 hi2 => hemp i2 (List.mem_cons_of_mem _ hi2)
      have hihx := ih j post hpre hj hprem
      rw [List.cons_append]
      generalize hG : pre ++ j :: post = L at hihx ⊢
      simp only [openScan, hi, hie, List.isEmpty_nil, Bool.not_true, Bool.or_false, hihx,
        List.length_cons]

theorem openScan_fatal_other (files : List (List Node)) (oracle : Nat → OpenRes) :
    ∀ (pre : List Nat) (j : Nat) (post : List Nat) (seen : Bool),
      (∀ i ∈ pre, oracle i = OpenRes.ok) → oracle j = OpenRes.otherErr →
      openScan files oracle (pre ++ j :: post) seen = OpenOut.fatal pre.length := by
  intro pre
  induction pre with
  | nil =>
      intro j post seen _ hj
      simp [openScan, hj]
  | cons i pre ih =>
      intro j post seen hok hj
      have hi : oracle i = OpenRes.ok := hok i (List.mem_cons_self _ _)
      have hpre : ∀ i2 ∈ pre, oracle i2 = OpenRes.ok :=
        fun i2 hi2 => hok i2 (List.mem_cons_of_mem _ hi2)
      have hihx := ih j post (seen || !(files.getD i []).isEmpty) hpre hj
      rw [List.cons_append]
      generalize hG : pre ++ j :: post = L at hihx ⊢
      simp only [openScan, hi, hihx, List.length_cons]

theorem openScan_range_inv (files : List (List Node)) (oracle : Nat → OpenRes)
    (a n : Nat) (seeded : List (List Node)) (consumed k : Nat) (t : Bool)
    (h : openScan files oracle (List.range' a n) false = OpenOut.done seeded consumed k t) :
    consumed ≤ n ∧ seeded = seedsOf files (List.range' a consumed) := by
  obtain ⟨pre, post, e1, _, e3, e4, _, _⟩ :=
    openScan_inv files oracle (List.range' a n) false seeded consumed k t h
  obtain ⟨f1, f2, _⟩ := range'_append_inv pre post a n e1.symm
  subst e4
  exact ⟨f2, by rw [e3, ← f1]⟩


/-! Lemmas on segment contents of the temp-file table. -/

theorem segFlat_zero (files : List (List Node)) (a : Nat) : segFlat files a 0 = [] := rfl

theorem segFlat_one (files : List (List Node)) (a : Nat) :
    segFlat files a 1 = files.getD a [] := by
  simp [segFlat, List.range']

theorem segFlat_split (files : List (List Node)) (a m n : Nat) :
    segFlat files a (m + n) = segFlat files a m ++ segFlat files (a + m) n := by
  unfold segFlat
  rw [Nat.add_comm m n, ← List.range'_append_1 a m n, List.map_append, List.flatten_append]

theorem segFlat_congr {files1 files2 : List (List Node)} (a n : Nat)
    (h : ∀ j, a ≤ j → j < a + n → files1.getD j [] = files2.getD j []) :
    segFlat files1 a n = segFlat files2 a n := by
  unfold segFlat
  congr 1
  refine List.map_congr_left ?_
  intro j hj
  obtain ⟨h1, h2⟩ := List.mem_range'_1.mp hj
  exact h j h1 h2

theorem segFlat_append_pad (files : List (List Node)) (x : List Node) (a n : Nat)
    (h : a + n ≤ files.length) : segFlat (files ++ [x]) a n = segFlat files a n := by
  refine segFlat_congr a n ?_
  intro j _ hj2
  exact getD_append_lt files [x] j [] (by omega)

theorem segFlat_set_out (files : List (List Node)) (i : Nat) (x : List Node) (a n : Nat)
    (h : a + n ≤ i) : segFlat (files.set i x) a n = segFlat files a n := by
  refine segFlat_congr a n ?_
  intro j _ hj2
  exact getD_set_ne files i j x [] (by omega)

theorem pairwise_getD {cmp : Node → Node → Int} {files : List (List Node)}
    (hs : ∀ r ∈ files, r.Pairwise (leOf cmp)) (j : Nat) :
    (files.getD j []).Pairwise (leOf cmp) := by
  by_cases h : j < files.length
  · have hmem : files.getD j [] ∈ files := by
      rw [List.getD_eq_getElem _ _ h]
      exact List.getElem_mem h
    exact hs _ hmem
  · rw [List.getD_eq_default _ _ (by omega)]
    exact List.Pairwise.nil

theorem seedsOf_sorted {cmp : Node → Node → Int} {files : List (List Node)}
    (hs : ∀ r ∈ files, r.Pairwise (leOf cmp)) (idxs : List Nat) :
    ∀ r ∈ seedsOf files idxs, r.Pairwise (leOf cmp) := by
  intro r hr
  obtain ⟨_, j, _, rfl⟩ := seedsOf_mem files idxs hr
  exact pairwise_getD hs j

theorem seedsOf_ne_nil {files : List (List Node)} {idxs : List Nat} :
    ∀ r ∈ seedsOf files idxs, r ≠ [] :=
  fun r hr => (seedsOf_mem files idxs hr).1

/-! Characterization of one pass of mergeFiles in terms of its state update. -/

theorem passB0_le (M : Nat) (st : MState) (hal : st.a ≤ st.last) :
    passB0 M st ≤ st.last := by
  unfold passB0
  split_ifs with h
  · exact le_rfl
  · omega

theorem seedsOf_range_zero_iff (files : List (List Node)) (a consumed : Nat)
    (h : seedsOf files (List.range' a consumed) ≠ []) : 1 ≤ consumed := by
  by_contra hc
  have : consumed = 0 := by omega
  subst this
  exact h rfl

theorem mergePass_next_spec (cmp : Node → Node → Int) (oracle : Nat → OpenRes)
    (wr : Nat → WRes) (M : Nat) (st st2 : MState)
    (hal : st.a ≤ st.last)
    (h : mergePass cmp oracle wr M st = PassOut.next st2) :
    ∃ consumed,
      seedsOf (st.files ++ [[]]) (List.range' st.a consumed) ≠ [] ∧ 1 ≤ consumed ∧
      st.a + consumed ≤ passB0 M st + 1 ∧
      st.a + consumed ≤ st.last ∧
      st2.files = (st.files ++ [[]]).set st.files.length
        (kmerge cmp (seedsOf (st.files ++ [[]]) (List.range' st.a consumed))) ∧
      st2.a = st.a + consumed ∧ st2.last = st.files.length ∧
      st2.deleted = st.deleted ++ List.range' st.a consumed ∧
      st2.out = st.out ∧ st2.wn = st.wn := by
  simp only [mergePass] at h
  cases hopen : openScan (st.files ++ [[]]) oracle
      (List.range' st.a (passB0 M st + 1 - st.a)) false <;>
    rw [hopen] at h <;> dsimp only at h
  case fatal => simp at h
  case done seeded consumed k t =>
      obtain ⟨hle, hseeds⟩ := openScan_range_inv _ _ _ _ _ _ _ _ hopen
      by_cases hz : seeded = []
      · rw [if_pos hz] at h
        simp at h
      · rw [if_neg hz] at h
        by_cases hb : st.a + consumed = st.last + 1
        · rw [if_pos hb] at h
          cases hw : writeAll wr st.wn (kmerge cmp seeded) <;> rw [hw] at h <;> simp at h
        · rw [if_neg hb] at h
          simp only [PassOut.next.injEq] at h
          have hz2 : seedsOf (st.files ++ [[]]) (List.range' st.a consumed) ≠ [] := by
            rw [← hseeds]; exact hz
          have hc1 : 1 ≤ consumed := seedsOf_range_zero_iff _ _ _ hz2
          have hble := passB0_le M st hal
          refine ⟨consumed, hz2, hc1, by omega, by omega, ?_, ?_, ?_, ?_, ?_, ?_⟩
          · rw [← h]; simp [hseeds]
          · rw [← h]
          · rw [← h]
          · rw [← h]
          · rw [← h]
          · rw [← h]

theorem mergePass_finished_spec (cmp : Node → Node → Int) (oracle : Nat → OpenRes)
    (wr : Nat → WRes) (M : Nat) (st st2 : MState)
    (hal : st.a ≤ st.last)
    (h : mergePass cmp oracle wr M st = PassOut.finished st2) :
    ∃ consumed p,
      seedsOf (st.files ++ [[]]) (List.range' st.a consumed) ≠ [] ∧ 1 ≤ consumed ∧
      st.a + consumed = st.last + 1 ∧
      writeAll wr st.wn
        (kmerge cmp (seedsOf (st.files ++ [[]]) (List.range' st.a consumed))) = some p ∧
      st2.files = st.files ++ [[]] ∧
      st2.a = st.a + consumed ∧ st2.last = st.last ∧
      st2.deleted = st.deleted ++ List.range' st.a consumed ∧
      st2.out = st.out ++ p.2 ∧ st2.wn = p.1 := by
  simp only [mergePass] at h
  cases hopen : openScan (st.files ++ [[]]) oracle
      (List.range' st.a (passB0 M st + 1 - st.a)) false <;>
    rw [hopen] at h <;> dsimp only at h
  case fatal => simp at h
  case done seeded consumed k t =>
      obtain ⟨hle, hseeds⟩ := openScan_range_inv _ _ _ _ _ _ _ _ hopen
      by_cases hz : seeded = []
      · rw [if_pos hz] at h
        simp at h
      · rw [if_neg hz] at h
        by_cases hb : st.a + consumed = st.last + 1
        · rw [if_pos hb] at h
          cases hw : writeAll wr st.wn (kmerge cmp seeded) <;> rw [hw] at h <;>
            dsimp only at h
          · simp at h
          next p =>
              simp only [PassOut.finished.injEq] at h
              have hz2 : seedsOf (st.files ++ [[]]) (List.range' st.a consumed) ≠ [] := by
                rw [← hseeds]; exact hz
              have hc1 : 1 ≤ consumed := seedsOf_range_zero_iff _ _ _ hz2
              refine ⟨consumed, p, hz2, hc1, hb, ?_, ?_, ?_, ?_, ?_, ?_, ?_⟩
              · rw [← hseeds]; exact hw
              · rw [← h]
              · rw [← h]
              · rw [← h]
              · rw [← h]
              · rw [← h]
              · rw [← h]
        · rw [if_neg hb] at h
          simp at h


/-! The mergeFiles loop: a completed run emits a sorted output that is a
permutation of the contents of the active temp-file range it started from. -/

theorem mergeRun_ok_sorted {cmp : Node → Node → Int} (hc : CmpOk cmp)
    (oracle : Nat → OpenRes) (wr : Nat → WRes) (M : Nat) :
    ∀ (fuel : Nat) (st stf : MState),
      st.last + 1 = st.files.length → st.a ≤ st.last → st.out = [] →
      (∀ r ∈ st.files, r.Pairwise (leOf cmp)) →
      mergeRun cmp oracle wr M fuel st = (Outcome.ok, stf) →
      stf.out.Pairwise (leOf cmp) := by
  intro fuel
  induction fuel with
  | zero =>
      intro st stf _ _ _ _ h
      simp [mergeRun] at h
  | succ fuel ih =>
      intro st stf hlen hal hout hsorted h
      simp only [mergeRun] at h
      cases hp : mergePass cmp oracle wr M st <;> rw [hp] at h
      case next st2 =>
          obtain ⟨consumed, hz, hc1, hcb, hcl, hf, ha2, hl2, hd2, ho2, hw2⟩ :=
            mergePass_next_spec cmp oracle wr M st st2 hal hp
          have hsorted1 : ∀ r ∈ st.files ++ [[]], r.Pairwise (leOf cmp) := by
            intro r hr
            rcases List.mem_append.mp hr with hr | hr
            · exact hsorted r hr
            · have : r = [] := by simpa using hr
              rw [this]
              exact List.Pairwise.nil
          refine ih st2 stf ?_ ?_ ?_ ?_ h
          · rw [hf, hl2]
            simp
          · rw [ha2, hl2]
            omega
          · rw [ho2, hout]
          · intro r hr
            rw [hf] at hr
            rcases List.mem_or_eq_of_mem_set hr with hr | rfl
            · exact hsorted1 r hr
            · exact kmerge_pairwise hc _ seedsOf_ne_nil (seedsOf_sorted hsorted1 _)
      case finished st2 =>
          obtain ⟨consumed, p, hz, hc1, hcb, hwa, hf, ha2, hl2, hd2, ho2, hw2⟩ :=
            mergePass_finished_spec cmp oracle wr M st st2 hal hp
          have hstf : stf = st2 := by
            simp only [Prod.mk.injEq] at h
            exact h.2.symm
          subst hstf
          rw [ho2, hout, List.nil_append]
          have hsorted1 : ∀ r ∈ st.files ++ [[]], r.Pairwise (leOf cmp) := by
            intro r hr
            rcases List.mem_append.mp hr with hr | hr
            · exact hsorted r hr
            · have : r = [] := by simpa using hr
              rw [this]
              exact List.Pairwise.nil
          have hkm : (kmerge cmp
              (seedsOf (st.files ++ [[]]) (List.range' st.a consumed))).Pairwise (leOf cmp) :=
            kmerge_pairwise hc _ seedsOf_ne_nil (seedsOf_sorted hsorted1 _)
          exact hkm.sublist (writeAll_sublist wr _ st.wn p hwa)
      case fatalErr st2 => simp at h
      case uninit st2 => simp at h

theorem mergeRun_ok_perm (cmp : Node → Node → Int) (oracle : Nat → OpenRes) (wr : Nat → WRes)
    (M : Nat) (hwr : ∀ n, wr n = WRes.ok) :
    ∀ (fuel : Nat) (st stf : MState),
      st.last + 1 = st.files.length → st.a ≤ st.last → st.out = [] →
      mergeRun cmp oracle wr M fuel st = (Outcome.ok, stf) →
      List.Perm stf.out (segFlat st.files st.a (st.last + 1 - st.a)) := by
  intro fuel
  induction fuel with
  | zero =>
      intro st stf _ _ _ h
      simp [mergeRun] at h
  | succ fuel ih =>
      intro st stf hlen hal hout h
      simp only [mergeRun] at h
      cases hp : mergePass cmp oracle wr M st <;> rw [hp] at h
      case next st2 =>
          obtain ⟨consumed, hz, hc1, hcb, hcl, hf, ha2, hl2, hd2, ho2, hw2⟩ :=
            mergePass_next_spec cmp oracle wr M st st2 hal hp
          have h2 := ih st2 stf (by rw [hf, hl2]; simp) (by rw [ha2, hl2]; omega)
            (by rw [ho2, hout]) h
          refine h2.trans ?_
          rw [hf, ha2, hl2]
          have hm : st.files.length + 1 - (st.a + consumed) =
              (st.last + 1 - (st.a + consumed)) + 1 := by omega
          rw [hm, segFlat_split]
          have hsplitT : st.last + 1 - st.a = consumed + (st.last + 1 - (st.a + consumed)) := by
            omega
          rw [hsplitT, segFlat_split]
          have he1 : segFlat ((st.files ++ [[]]).set st.files.length
              (kmerge cmp (seedsOf (st.files ++ [[]]) (List.range' st.a consumed))))
              (st.a + consumed) (st.last + 1 - (st.a + consumed)) =
              segFlat st.files (st.a + consumed) (st.last + 1 - (st.a + consumed)) := by
            rw [segFlat_set_out _ _ _ _ _ (by omega)]
            rw [segFlat_append_pad _ _ _ _ (by omega)]
          have he2 : segFlat ((st.files ++ [[]]).set st.files.length
              (kmerge cmp (seedsOf (st.files ++ [[]]) (List.range' st.a consumed))))
              (st.a + consumed + (st.last + 1 - (st.a + consumed))) 1 =
              kmerge cmp (seedsOf (st.files ++ [[]]) (List.range' st.a consumed)) := by
            have hx : st.a + consumed + (st.last + 1 - (st.a + consumed)) =
                st.files.length := by omega
            rw [hx, segFlat_one]
            exact getD_set_self _ _ _ _ (by simp)
          rw [he1, he2]
          have hkp : List.Perm
              (kmerge cmp (seedsOf (st.files ++ [[]]) (List.range' st.a consumed)))
              (segFlat st.files st.a consumed) := by
            refine (kmerge_perm cmp _ seedsOf_ne_nil).trans ?_
            rw [seedsOf_flatten]
            have : segFlat (st.files ++ [[]]) st.a consumed = segFlat st.files st.a consumed :=
              segFlat_append_pad _ _ _ _ (by omega)
            rw [← this]
            exact List.Perm.refl _
          refine (List.Perm.append_left _ hkp).trans ?_
          exact List.perm_append_comm
      case finished st2 =>
          obtain ⟨consumed, p, hz, hc1, hcb, hwa, hf, ha2, hl2, hd2, ho2, hw2⟩ :=
            mergePass_finished_spec cmp oracle wr M st st2 hal hp
          have hstf : stf = st2 := by
            simp only [Prod.mk.injEq] at h
            exact h.2.symm
          subst hstf
          rw [ho2, hout, List.nil_append]
          rw [writeAll_allOk wr hwr _ st.wn] at hwa
          have hp2 : p.2 = kmerge cmp (seedsOf (st.files ++ [[]]) (List.range' st.a consumed)) := by
            have := Option.some.injEq _ _ ▸ hwa
            simp only [Option.some.injEq] at hwa
            rw [← hwa]
          rw [hp2]
          have hcons : consumed = st.last + 1 - st.a := by omega
          refine (kmerge_perm cmp _ seedsOf_ne_nil).trans ?_
          rw [seedsOf_flatten]
          have hpad : segFlat (st.files ++ [[]]) st.a consumed = segFlat st.files st.a consumed :=
            segFlat_append_pad _ _ _ _ (by omega)
          rw [← hcons]
          rw [← hpad]
          exact List.Perm.refl _
      case fatalErr st2 => simp at h
      case uninit st2 => simp at h


/-! The record-reading phase of sortRandom preserves the records (every run
plus the live buffer is a permutation of the records read so far) and every
spilled run is sorted. -/

theorem fillStep_spec {cmp : Node → Node → Int} (hc : CmpOk cmp) (reallocOk : Nat → Bool)
    (st : RandPhase) (x : Node) (hsorted : ∀ r ∈ st.files, r.Pairwise (leOf cmp)) :
    (∀ r ∈ (fillStep cmp reallocOk st x).files, r.Pairwise (leOf cmp)) ∧
      List.Perm ((fillStep cmp reallocOk st x).files.flatten ++ (fillStep cmp reallocOk st x).buf)
        (st.files.flatten ++ (st.buf ++ [x])) := by
  have hflush : ∀ (st1 : RandPhase), st1.files = st.files →
      (∀ r ∈ (st1.files ++ [sortBuf cmp (st.buf ++ [x])]), r.Pairwise (leOf cmp)) ∧
        List.Perm ((st1.files ++ [sortBuf cmp (st.buf ++ [x])]).flatten ++ [])
          (st.files.flatten ++ (st.buf ++ [x])) := by
    intro st1 hf
    constructor
    · intro r hr
      rcases List.mem_append.mp hr with hr | hr
      · exact hsorted r (hf ▸ hr)
      · have : r = sortBuf cmp (st.buf ++ [x]) := by simpa using hr
        rw [this]
        exact sortBuf_pairwise hc _
    · rw [hf]
      simp only [List.flatten_append, List.flatten_cons, List.flatten_nil, List.append_nil]
      exact List.Perm.append_left _ (sortBuf_perm cmp (st.buf ++ [x]))
  simp only [fillStep]
  split_ifs <;>
    first
      | exact hflush _ rfl
      | exact ⟨hsorted, List.Perm.refl _⟩

theorem foldl_fillStep_inv {cmp : Node → Node → Int} (hc : CmpOk cmp) (reallocOk : Nat → Bool) :
    ∀ (nodes : List Node) (st : RandPhase),
      (∀ r ∈ st.files, r.Pairwise (leOf cmp)) →
      (∀ r ∈ (nodes.foldl (fillStep cmp reallocOk) st).files, r.Pairwise (leOf cmp)) ∧
        List.Perm ((nodes.foldl (fillStep cmp reallocOk) st).files.flatten ++
            (nodes.foldl (fillStep cmp reallocOk) st).buf)
          (st.files.flatten ++ st.buf ++ nodes) := by
  intro nodes
  induction nodes with
  | nil =>
      intro st hsorted
      exact ⟨hsorted, by simp⟩
  | cons x nodes ih =>
      intro st hsorted
      obtain ⟨hs1, hp1⟩ := fillStep_spec hc reallocOk st x hsorted
      obtain ⟨hs2, hp2⟩ := ih (fillStep cmp reallocOk st x) hs1
      refine ⟨hs2, ?_⟩
      have he : st.files.flatten ++ st.buf ++ (x :: nodes) =
          (st.files.flatten ++ (st.buf ++ [x])) ++ nodes := by
        simp
      rw [List.foldl_cons, he]
      exact hp2.trans (hp1.append_right nodes)

theorem sortRandomPhase_facts {cmp : Node → Node → Int} (hc : CmpOk cmp) (cfg : Cfg)
    (nodes : List Node) (ph : RandPhase) (h : sortRandomPhase cmp cfg nodes = some ph) :
    (∀ r ∈ ph.files, r.Pairwise (leOf cmp)) ∧
      List.Perm (ph.files.flatten ++ ph.buf) nodes := by
  unfold sortRandomPhase at h
  cases hia : (initAllocGo cfg.allocOk cfg.maxRecs (cfg.maxRecs + 2) (numChunksInit cfg.nc0) []).2 <;>
    rw [hia] at h
  · simp at h
  case some p =>
      simp only [Option.some.injEq] at h
      obtain ⟨hs, hp⟩ := foldl_fillStep_inv hc cfg.reallocOk nodes
        { files := [], buf := [], bufRecs := p.2, bufMax := cfg.maxRecs,
          chunk := p.2, grows := [] } (by intro r hr; simp at hr)
      rw [← h]
      exact ⟨hs, by simpa using hp⟩

/-! Helpers to relate index segments with take and drop. -/

theorem range_getD_eq_take_drop (l : List (List Node)) :
    ∀ (c a : Nat), a + c ≤ l.length →
      (List.range' a c).map (fun j => l.getD j []) = (l.drop a).take c := by
  intro c
  induction c with
  | zero => intro a _; simp
  | succ c ih =>
      intro a hac
      rw [List.range'_succ a c 1, List.map_cons, ih (a + 1) (by omega)]
      rw [List.drop_eq_getElem_cons (by omega : a < l.length)]
      rw [List.take_succ_cons, List.getD_eq_getElem _ _ (by omega : a < l.length)]

theorem segFlat_all (files : List (List Node)) :
    segFlat files 0 files.length = files.flatten := by
  unfold segFlat
  rw [range_getD_eq_take_drop files files.length 0 (by omega)]
  simp

theorem set_append_len (l : List (List Node)) (x y : List Node) :
    (l ++ [x]).set l.length y = l ++ [y] := by
  induction l with
  | nil => rfl
  | cons a l ih => simp [List.set_cons_succ, ih]

theorem getD_map_mk (inputs : List (List RwRec)) (mk : RwRec → Node) (i : Nat) :
    (inputs.map (fun s => s.map mk)).getD i [] = (inputs.getD i []).map mk := by
  by_cases h : i < inputs.length
  · rw [List.getD_eq_getElem _ _ (by simpa using h), List.getD_eq_getElem _ _ h]
    simp
  · rw [List.getD_eq_default _ _ (by simpa using le_of_not_lt h),
      List.getD_eq_default _ _ (le_of_not_lt h)]
    simp


/-! Characterization of the sortPresorted passes. -/

theorem inScanGo_spec (nIn : Nat) (oracle : Nat → OpenRes) (inIdx : Nat) :
    ∀ (slots c0 : Nat), inIdx + c0 ≤ nIn →
      c0 ≤ (inScanGo nIn oracle inIdx c0 slots).1 ∧
      inIdx + (inScanGo nIn oracle inIdx c0 slots).1 ≤ nIn ∧
      ((inScanGo nIn oracle inIdx c0 slots).2 = InRv.noMore →
        inIdx + (inScanGo nIn oracle inIdx c0 slots).1 = nIn) := by
  intro slots
  induction slots with
  | zero =>
      intro c0 hc0
      refine ⟨le_rfl, hc0, ?_⟩
      intro h
      simp [inScanGo] at h
  | succ slots ih =>
      intro c0 hc0
      by_cases hn : nIn ≤ inIdx + c0
      · simp only [inScanGo, if_pos hn]
        exact ⟨le_rfl, hc0, fun _ => by omega⟩
      · simp only [inScanGo, if_neg hn]
        cases ho : oracle (inIdx + c0) <;> dsimp only
        · obtain ⟨e1, e2, e3⟩ := ih (c0 + 1) (by omega)
          exact ⟨by omega, e2, e3⟩
        · exact ⟨le_rfl, hc0, by intro h; simp at h⟩
        · exact ⟨le_rfl, hc0, by intro h; simp at h⟩

theorem presortPass_seeded_eq (mk : RwRec → Node) (inputs : List (List RwRec)) (a c : Nat) :
    ((List.range' a c).map (fun i => (inputs.getD i []).map mk)).filter (fun r => !r.isEmpty)
      = seedsOf (inputs.map (fun s => s.map mk)) (List.range' a c) := by
  unfold seedsOf
  congr 1
  refine List.map_congr_left ?_
  intro j _
  exact (getD_map_mk inputs mk j).symm

theorem presortPass_next_or_keep_spec (cmp : Node → Node → Int) (mk : RwRec → Node)
    (inputs : List (List RwRec)) (oracle : Nat → OpenRes) (wr : Nat → WRes) (M : Nat)
    (st st2 : PPhase)
    (h : presortPass cmp mk inputs oracle wr M st = PPassOut.next st2 ∨
         presortPass cmp mk inputs oracle wr M st = PPassOut.lastKeep st2) :
    st2.files = st.files ++ [kmerge cmp (seedsOf (inputs.map (fun s => s.map mk))
        (List.range' st.inIdx (inScanGo inputs.length oracle st.inIdx 0 M).1))] ∧
    st2.inIdx = st.inIdx + (inScanGo inputs.length oracle st.inIdx 0 M).1 ∧
    st2.out = st.out ∧ st2.wn = st.wn := by
  have hset : (st.files ++ [[]]).set st.files.length
      (kmerge cmp (seedsOf (inputs.map (fun s : List RwRec => s.map mk))
        (List.range' st.inIdx (inScanGo inputs.length oracle st.inIdx 0 M).1))) =
      st.files ++ [kmerge cmp (seedsOf (inputs.map (fun s : List RwRec => s.map mk))
        (List.range' st.inIdx (inScanGo inputs.length oracle st.inIdx 0 M).1))] :=
    set_append_len _ _ _
  rcases h with h | h <;>
  · simp only [presortPass, presortPass_seeded_eq] at h
    cases hrv : (inScanGo inputs.length oracle st.inIdx 0 M).2 <;> rw [hrv] at h <;>
      dsimp only at h
    all_goals
      first
      | (simp at h
         done)
      | (by_cases hz : st.files.length = 0
         · rw [if_pos hz] at h
           cases hw : writeAll wr st.wn (kmerge cmp
               (seedsOf (inputs.map (fun s : List RwRec => s.map mk))
                 (List.range' st.inIdx (inScanGo inputs.length oracle st.inIdx 0 M).1))) <;>
             rw [hw] at h <;> simp at h
         · rw [if_neg hz] at h
           first
           | (simp at h
              done)
           | (simp only [PPassOut.lastKeep.injEq, PPassOut.next.injEq] at h
              refine ⟨?_, by rw [← h], by rw [← h], by rw [← h]⟩
              rw [← h]
              first
              | rfl
              | exact hset))
      | (simp only [PPassOut.next.injEq, PPassOut.lastKeep.injEq] at h
         refine ⟨?_, by rw [← h], by rw [← h], by rw [← h]⟩
         rw [← h]
         first
         | rfl
         | exact hset)

theorem presortPass_keep_noMore (cmp : Node → Node → Int) (mk : RwRec → Node)
    (inputs : List (List RwRec)) (oracle : Nat → OpenRes) (wr : Nat → WRes) (M : Nat)
    (st st2 : PPhase)
    (h : presortPass cmp mk inputs oracle wr M st = PPassOut.lastKeep st2) :
    (inScanGo inputs.length oracle st.inIdx 0 M).2 = InRv.noMore := by
  simp only [presortPass, presortPass_seeded_eq] at h
  cases hrv : (inScanGo inputs.length oracle st.inIdx 0 M).2 <;> rw [hrv] at h <;>
    dsimp only at h
  all_goals first | rfl | simp at h

theorem presortPass_direct_spec (cmp : Node → Node → Int) (mk : RwRec → Node)
    (inputs : List (List RwRec)) (oracle : Nat → OpenRes) (wr : Nat → WRes) (M : Nat)
    (st st2 : PPhase)
    (h : presortPass cmp mk inputs oracle wr M st = PPassOut.lastDirect st2) :
    ∃ p, st.files = [] ∧
      (inScanGo inputs.length oracle st.inIdx 0 M).2 = InRv.noMore ∧
      writeAll wr st.wn (kmerge cmp (seedsOf (inputs.map (fun s => s.map mk))
        (List.range' st.inIdx (inScanGo inputs.length oracle st.inIdx 0 M).1))) = some p ∧
      st2.files = [[]] ∧ st2.inIdx = st.inIdx + (inScanGo inputs.length oracle st.inIdx 0 M).1 ∧
      st2.out = st.out ++ p.2 ∧ st2.wn = p.1 := by
  simp only [presortPass, presortPass_seeded_eq] at h
  cases hrv : (inScanGo inputs.length oracle st.inIdx 0 M).2 <;> rw [hrv] at h <;>
    dsimp only at h
  case noMore =>
      by_cases hz : st.files.length = 0
      · rw [if_pos hz] at h
        cases hw : writeAll wr st.wn (kmerge cmp (seedsOf (inputs.map (fun s : List RwRec => s.map mk))
            (List.range' st.inIdx (inScanGo inputs.length oracle st.inIdx 0 M).1))) <;>
          rw [hw] at h <;> dsimp only at h
        · simp at h
        next p =>
            simp only [PPassOut.lastDirect.injEq] at h
            have hnil : st.files = [] := List.length_eq_zero.mp hz
            refine ⟨p, hnil, rfl, rfl, ?_, ?_, ?_, ?_⟩ <;> rw [← h] <;> simp [hnil]
      · rw [if_neg hz] at h
        simp at h
  case resource => simp at h
  case ioErr => simp at h
  case limit => simp at h


/-! The sortPresorted loop: outcome facts for the direct-output case and for
the case that hands temp files to mergeFiles. -/

theorem presortRun_sorted {cmp : Node → Node → Int} (hc : CmpOk cmp) (mk : RwRec → Node)
    (inputs : List (List RwRec)) (oracle : Nat → OpenRes) (wr : Nat → WRes) (M : Nat)
    (hpre : ∀ r ∈ inputs.map (fun s => s.map mk), r.Pairwise (leOf cmp)) :
    ∀ (fuel : Nat) (st st2 : PPhase),
      (∀ r ∈ st.files, r.Pairwise (leOf cmp)) → st.out = [] →
      ((presortRun cmp mk inputs oracle wr M fuel st = PRunOut.direct st2 →
          st2.out.Pairwise (leOf cmp)) ∧
        (presortRun cmp mk inputs oracle wr M fuel st = PRunOut.keep st2 →
          (∀ r ∈ st2.files, r.Pairwise (leOf cmp)) ∧ st2.out = [] ∧ st2.files ≠ [])) := by
  have hmerged : ∀ a c, (kmerge cmp (seedsOf (inputs.map (fun s : List RwRec => s.map mk))
      (List.range' a c))).Pairwise (leOf cmp) := by
    intro a c
    exact kmerge_pairwise hc _ seedsOf_ne_nil (seedsOf_sorted hpre _)
  intro fuel
  induction fuel with
  | zero =>
      intro st st2 _ _
      constructor <;> intro h <;> simp [presortRun] at h
  | succ fuel ih =>
      intro st st2 hs hout
      simp only [presortRun]
      cases hp : presortPass cmp mk inputs oracle wr M st
      case next st3 =>
          obtain ⟨hf3, hi3, ho3, hw3⟩ :=
            presortPass_next_or_keep_spec cmp mk inputs oracle wr M st st3 (Or.inl hp)
          refine ih st3 st2 ?_ ?_
          · intro r hr
            rw [hf3] at hr
            rcases List.mem_append.mp hr with hr | hr
            · exact hs r hr
            · have : r = kmerge cmp (seedsOf (inputs.map (fun s : List RwRec => s.map mk))
                  (List.range' st.inIdx (inScanGo inputs.length oracle st.inIdx 0 M).1)) := by
                simpa using hr
              rw [this]
              exact hmerged _ _
          · rw [ho3, hout]
      case lastKeep st3 =>
          obtain ⟨hf3, hi3, ho3, hw3⟩ :=
            presortPass_next_or_keep_spec cmp mk inputs oracle wr M st st3 (Or.inr hp)
          constructor
          · intro h
            simp at h
          · intro h
            simp only [PRunOut.keep.injEq] at h
            subst h
            refine ⟨?_, by rw [ho3, hout], by rw [hf3]; simp⟩
            intro r hr
            rw [hf3] at hr
            rcases List.mem_append.mp hr with hr | hr
            · exact hs r hr
            · have : r = kmerge cmp (seedsOf (inputs.map (fun s : List RwRec => s.map mk))
                  (List.range' st.inIdx (inScanGo inputs.length oracle st.inIdx 0 M).1)) := by
                simpa using hr
              rw [this]
              exact hmerged _ _
      case lastDirect st3 =>
          obtain ⟨p, hnil, hrv, hw, hf3, hi3, ho3, hw3⟩ :=
            presortPass_direct_spec cmp mk inputs oracle wr M st st3 hp
          constructor
          · intro h
            simp only [PRunOut.direct.injEq] at h
            subst h
            rw [ho3, hout, List.nil_append]
            exact (hmerged _ _).sublist (writeAll_sublist wr _ st.wn p hw)
          · intro h
            simp at h
      case fatalErr st3 =>
          constructor <;> intro h <;> simp at h

theorem presortRun_perm (cmp : Node → Node → Int) (mk : RwRec → Node)
    (inputs : List (List RwRec)) (oracle : Nat → OpenRes) (wr : Nat → WRes) (M : Nat)
    (hwr : ∀ n, wr n = WRes.ok) :
    ∀ (fuel : Nat) (st st2 : PPhase),
      st.out = [] → st.inIdx ≤ inputs.length →
      List.Perm st.files.flatten
        (((inputs.map (fun s => s.map mk)).take st.inIdx).flatten) →
      ((presortRun cmp mk inputs oracle wr M fuel st = PRunOut.direct st2 →
          List.Perm st2.out (inputs.map (fun s => s.map mk)).flatten) ∧
        (presortRun cmp mk inputs oracle wr M fuel st = PRunOut.keep st2 →
          st2.out = [] ∧
          List.Perm st2.files.flatten (inputs.map (fun s => s.map mk)).flatten ∧
          st2.files ≠ [])) := by
  have hlenN : (inputs.map (fun s : List RwRec => s.map mk)).length = inputs.length := by
    simp
  have hseg : ∀ a c, a + c ≤ inputs.length →
      List.Perm (kmerge cmp (seedsOf (inputs.map (fun s : List RwRec => s.map mk))
        (List.range' a c)))
        ((((inputs.map (fun s : List RwRec => s.map mk)).drop a).take c).flatten) := by
    intro a c hac
    refine (kmerge_perm cmp _ seedsOf_ne_nil).trans ?_
    rw [seedsOf_flatten]
    rw [range_getD_eq_take_drop _ c a (by omega)]
  have htake : ∀ a c, ((inputs.map (fun s : List RwRec => s.map mk)).take (a + c)).flatten =
      ((inputs.map (fun s : List RwRec => s.map mk)).take a).flatten ++
      ((((inputs.map (fun s : List RwRec => s.map mk)).drop a).take c).flatten) := by
    intro a c
    rw [List.take_add, List.flatten_append]
  intro fuel
  induction fuel with
  | zero =>
      intro st st2 _ _ _
      constructor <;> intro h <;> simp [presortRun] at h
  | succ fuel ih =>
      intro st st2 hout hidx hperm
      simp only [presortRun]
      cases hp : presortPass cmp mk inputs oracle wr M st
      case next st3 =>
          obtain ⟨hf3, hi3, ho3, hw3⟩ :=
            presortPass_next_or_keep_spec cmp mk inputs oracle wr M st st3 (Or.inl hp)
          obtain ⟨e1, e2, e3⟩ := inScanGo_spec inputs.length oracle st.inIdx M 0 (by omega)
          refine ih st3 st2 (by rw [ho3, hout]) (by omega) ?_
          rw [hf3, hi3, List.flatten_append, htake]
          simp only [List.flatten_cons, List.flatten_nil, List.append_nil]
          exact hperm.append (hseg st.inIdx _ (by omega))
      case lastKeep st3 =>
          obtain ⟨hf3, hi3, ho3, hw3⟩ :=
            presortPass_next_or_keep_spec cmp mk inputs oracle wr M st st3 (Or.inr hp)
          have hnm := presortPass_keep_noMore cmp mk inputs oracle wr M st st3 hp
          obtain ⟨e1, e2, e3⟩ := inScanGo_spec inputs.length oracle st.inIdx M 0 (by omega)
          have hall : st.inIdx + (inScanGo inputs.length oracle st.inIdx 0 M).1 =
              inputs.length := e3 hnm
          constructor
          · intro h
            simp at h
          · intro h
            simp only [PRunOut.keep.injEq] at h
            subst h
            refine ⟨by rw [ho3, hout], ?_, by rw [hf3]; simp⟩
            rw [hf3, List.flatten_append]
            simp only [List.flatten_cons, List.flatten_nil, List.append_nil]
            have hwhole : (inputs.map (fun s : List RwRec => s.map mk)).flatten =
                ((inputs.map (fun s : List RwRec => s.map mk)).take
                  (st.inIdx + (inScanGo inputs.length oracle st.inIdx 0 M).1)).flatten := by
              rw [hall, ← hlenN, List.take_length]
            rw [hwhole, htake]
            exact hperm.append (hseg st.inIdx _ (by omega))
      case lastDirect st3 =>
          obtain ⟨p, hnil, hrv, hw, hf3, hi3, ho3, hw3⟩ :=
            presortPass_direct_spec cmp mk inputs oracle wr M st st3 hp
          obtain ⟨e1, e2, e3⟩ := inScanGo_spec inputs.length oracle st.inIdx M 0 (by omega)
          have hall : st.inIdx + (inScanGo inputs.length oracle st.inIdx 0 M).1 =
              inputs.length := e3 hrv
          constructor
          · intro h
            simp only [PRunOut.direct.injEq] at h
            subst h
            rw [ho3, hout, List.nil_append]
            rw [writeAll_allOk wr hwr _ st.wn] at hw
            simp only [Option.some.injEq] at hw
            rw [← hw]
            have hempty : ((inputs.map (fun s : List RwRec => s.map mk)).take
                st.inIdx).flatten = [] := by
              have h0 := hperm
              rw [hnil] at h0
              simpa using h0.symm.eq_nil
            have hwhole : (inputs.map (fun s : List RwRec => s.map mk)).flatten =
                ((inputs.map (fun s : List RwRec => s.map mk)).take
                  (st.inIdx + (inScanGo inputs.length oracle st.inIdx 0 M).1)).flatten := by
              rw [hall, ← hlenN, List.take_length]
            rw [hwhole, htake, hempty, List.nil_append]
            exact hseg st.inIdx _ (by omega)
          · intro h
            simp at h
      case fatalErr st3 =>
          constructor <;> intro h <;> simp at h


/-! Claim theorems. -/

theorem nodeLe_trans {K : List SortField} {rev : Bool} (hK : KOk K) :
    Transitive (nodeLe K rev) :=
  fun _ _ _ hab hbc => (rwrecCompareOk rev K hK).2 _ _ _ hab hbc

/-- C1: for every sort-field configuration whose plug-in comparators are well
behaved, every completed execution of the sorter - through the in-memory
direct path, a single merge pass or cascaded merge passes, in the random or
the presorted driver (the latter under its contract that the inputs are
sorted by the same key) - emits an output stream in which every adjacent
pair of records compares at most zero under the configured comparator. -/
theorem C1_output_adjacent_sorted (K : List SortField) (rev : Bool)
    (extr : List (RwRec → List Nat)) (cfg : Cfg) (presorted : Bool)
    (inputs : List (List RwRec)) (res : RunRes)
    (hK : KOk K)
    (hpre : presorted = true →
      ∀ s ∈ inputs, (s.map (mkNode extr)).Chain' (nodeLe K rev))
    (h : rwsortRun K rev extr cfg presorted inputs = (Outcome.ok, res)) :
    res.out.Chain' (nodeLe K rev) := by
  have hc : CmpOk (rwrecCompare rev K) := rwrecCompareOk rev K hK
  suffices hsuf : res.out.Pairwise (leOf (rwrecCompare rev K)) by
    exact hsuf.chain'
  cases presorted
  case true =>
      have hpreN : ∀ r ∈ inputs.map (fun s => s.map (mkNode extr)),
          r.Pairwise (leOf (rwrecCompare rev K)) := by
        intro r hr
        obtain ⟨s, hs, rfl⟩ := List.mem_map.mp hr
        haveI : IsTrans Node (leOf (rwrecCompare rev K)) := ⟨fun a b c => hc.2 a b c⟩
        exact List.chain'_iff_pairwise.mp (hpre rfl s hs)
      simp only [rwsortRun, if_true] at h
      cases hrun : presortRun (rwrecCompare rev K) (mkNode extr) inputs cfg.inOpen cfg.wr
          cfg.M cfg.fuel { files := [], inIdx := 0, out := [], wn := 0 } <;>
        rw [hrun] at h <;> dsimp only at h
      case direct st =>
          obtain ⟨hd, _⟩ := presortRun_sorted hc (mkNode extr) inputs cfg.inOpen cfg.wr cfg.M
            hpreN cfg.fuel { files := [], inIdx := 0, out := [], wn := 0 } st
            (by intro r hr; simp at hr) rfl
          have hout := hd hrun
          simp only [Prod.mk.injEq] at h
          rw [← h.2]
          exact hout
      case keep st =>
          obtain ⟨_, hk⟩ := presortRun_sorted hc (mkNode extr) inputs cfg.inOpen cfg.wr cfg.M
            hpreN cfg.fuel { files := [], inIdx := 0, out := [], wn := 0 } st
            (by intro r hr; simp at hr) rfl
          obtain ⟨hsorted, hout0, hne⟩ := hk hrun
          simp only [runMergePhase] at h
          cases hmr : mergeRun (rwrecCompare rev K) cfg.tOpen cfg.wr cfg.M cfg.fuel
              { files := st.files, a := 0, last := st.files.length - 1, deleted := [],
                out := st.out, wn := st.wn } <;> rw [hmr] at h
          rename_i oc mst
          simp only [Prod.mk.injEq] at h
          obtain ⟨hoc, hres⟩ := h
          have hlen1 : 1 ≤ st.files.length := by
            cases hfe : st.files with
            | nil => exact absurd hfe hne
            | cons a l => simp [hfe]
          have := mergeRun_ok_sorted hc cfg.tOpen cfg.wr cfg.M cfg.fuel
            { files := st.files, a := 0, last := st.files.length - 1, deleted := [],
              out := st.out, wn := st.wn } mst (by simp; omega) (by simp) (by simp [hout0])
            (by simpa using hsorted) (by rw [hmr, hoc])
          rw [← hres]
          exact this
      case fatalP st => simp at h
      case fuelP st => simp at h
  case false =>
      simp only [rwsortRun, Bool.false_eq_true, if_false] at h
      cases hph : sortRandomPhase (rwrecCompare rev K) cfg
          (inputs.flatten.map (mkNode extr)) <;> rw [hph] at h <;> dsimp only at h
      case none => simp at h
      case some ph =>
          obtain ⟨hsorted, hperm⟩ := sortRandomPhase_facts hc cfg _ ph hph
          by_cases hbuf : ph.buf = []
          · rw [if_pos hbuf] at h
            by_cases hfils : ph.files = []
            · rw [if_pos hfils] at h
              simp only [Prod.mk.injEq] at h
              rw [← h.2]
              exact List.Pairwise.nil
            · rw [if_neg hfils] at h
              simp only [runMergePhase] at h
              cases hmr : mergeRun (rwrecCompare rev K) cfg.tOpen cfg.wr cfg.M cfg.fuel
                  { files := ph.files, a := 0, last := ph.files.length - 1, deleted := [],
                    out := [], wn := 0 } <;> rw [hmr] at h
              rename_i oc mst
              simp only [Prod.mk.injEq] at h
              obtain ⟨hoc, hres⟩ := h
              have hlen1 : 1 ≤ ph.files.length := by
                cases hfe : ph.files with
                | nil => exact absurd hfe hfils
                | cons a l => simp [hfe]
              have := mergeRun_ok_sorted hc cfg.tOpen cfg.wr cfg.M cfg.fuel
                { files := ph.files, a := 0, last := ph.files.length - 1, deleted := [],
                  out := [], wn := 0 } mst (by simp; omega) (by simp) rfl
                (by simpa using hsorted) (by rw [hmr, hoc])
              rw [← hres]
              exact this
          · rw [if_neg hbuf] at h
            by_cases hfils : ph.files = []
            · rw [if_pos hfils] at h
              cases hwa : writeAll cfg.wr 0 (sortBuf (rwrecCompare rev K) ph.buf) <;>
                rw [hwa] at h <;> dsimp only at h
              · simp at h
              next p =>
                  simp only [Prod.mk.injEq] at h
                  rw [← h.2]
                  exact (sortBuf_pairwise hc ph.buf).sublist
                    (writeAll_sublist cfg.wr _ 0 p hwa)
            · rw [if_neg hfils] at h
              simp only [runMergePhase] at h
              cases hmr : mergeRun (rwrecCompare rev K) cfg.tOpen cfg.wr cfg.M cfg.fuel
                  { files := ph.files ++ [sortBuf (rwrecCompare rev K) ph.buf], a := 0,
                    last := (ph.files ++ [sortBuf (rwrecCompare rev K) ph.buf]).length - 1,
                    deleted := [], out := [], wn := 0 } <;> rw [hmr] at h
              rename_i oc mst
              simp only [Prod.mk.injEq] at h
              obtain ⟨hoc, hres⟩ := h
              have hsortall : ∀ r ∈ ph.files ++ [sortBuf (rwrecCompare rev K) ph.buf],
                  r.Pairwise (leOf (rwrecCompare rev K)) := by
                intro r hr
                rcases List.mem_append.mp hr with hr | hr
                · exact hsorted r hr
                · have : r = sortBuf (rwrecCompare rev K) ph.buf := by simpa using hr
                  rw [this]
                  exact sortBuf_pairwise hc _
              have := mergeRun_ok_sorted hc cfg.tOpen cfg.wr cfg.M cfg.fuel
                { files := ph.files ++ [sortBuf (rwrecCompare rev K) ph.buf], a := 0,
                  last := (ph.files ++ [sortBuf (rwrecCompare rev K) ph.buf]).length - 1,
                  deleted := [], out := [], wn := 0 } mst (by simp) (by simp) rfl
                (by simpa using hsortall) (by rw [hmr, hoc])
              rw [← hres]
              exact this


theorem out_map_rwrec (extr : List (RwRec → List Nat)) (out : List Node)
    (recs : List RwRec) (h : List.Perm out (recs.map (mkNode extr))) :
    List.Perm (out.map Node.rwrec) recs := by
  have h2 := h.map Node.rwrec
  rw [List.map_map] at h2
  have h3 : recs.map (Node.rwrec ∘ mkNode extr) = recs := by
    have hid : ∀ r ∈ recs, (Node.rwrec ∘ mkNode extr) r = id r := fun r _ => rfl
    rw [List.map_congr_left hid, List.map_id]
  rw [h3] at h2
  exact h2

theorem map_mk_flatten (extr : List (RwRec → List Nat)) (inputs : List (List RwRec)) :
    (inputs.map (fun s : List RwRec => s.map (mkNode extr))).flatten =
      inputs.flatten.map (mkNode extr) := by
  induction inputs with
  | nil => rfl
  | cons a l ih =>
      simp only [List.map_cons, List.flatten_cons, List.map_append, ih]

/-- C2 (amended): for every sort-field configuration whose plug-in
comparators are well behaved and every record stream, a completed execution
in which every output write succeeds emits an output that is a permutation
of the input records - every input record appears exactly once.  The code
silently drops a record whose write reports a retryable error, so the
all-writes-succeed hypothesis is needed (see the counterexample). -/
theorem C2_output_permutation (K : List SortField) (rev : Bool)
    (extr : List (RwRec → List Nat)) (cfg : Cfg) (presorted : Bool)
    (inputs : List (List RwRec)) (res : RunRes)
    (hK : KOk K)
    (hwr : ∀ n, cfg.wr n = WRes.ok)
    (h : rwsortRun K rev extr cfg presorted inputs = (Outcome.ok, res)) :
    List.Perm (res.out.map Node.rwrec) inputs.flatten := by
  have hc : CmpOk (rwrecCompare rev K) := rwrecCompareOk rev K hK
  refine out_map_rwrec extr res.out inputs.flatten ?_
  have hNflat := map_mk_flatten extr inputs
  cases presorted
  case true =>
      simp only [rwsortRun, if_true] at h
      cases hrun : presortRun (rwrecCompare rev K) (mkNode extr) inputs cfg.inOpen cfg.wr
          cfg.M cfg.fuel { files := [], inIdx := 0, out := [], wn := 0 } <;>
        rw [hrun] at h <;> dsimp only at h
      case direct st =>
          obtain ⟨hd, _⟩ := presortRun_perm (rwrecCompare rev K) (mkNode extr) inputs
            cfg.inOpen cfg.wr cfg.M hwr cfg.fuel
            { files := [], inIdx := 0, out := [], wn := 0 } st rfl (by simp) (by simp)
          have hout := hd hrun
          simp only [Prod.mk.injEq] at h
          rw [← h.2]
          rw [hNflat] at hout
          exact hout
      case keep st =>
          obtain ⟨_, hk⟩ := presortRun_perm (rwrecCompare rev K) (mkNode extr) inputs
            cfg.inOpen cfg.wr cfg.M hwr cfg.fuel
            { files := [], inIdx := 0, out := [], wn := 0 } st rfl (by simp) (by simp)
          obtain ⟨hout0, hfperm, hne⟩ := hk hrun
          simp only [runMergePhase] at h
          cases hmr : mergeRun (rwrecCompare rev K) cfg.tOpen cfg.wr cfg.M cfg.fuel
              { files := st.files, a := 0, last := st.files.length - 1, deleted := [],
                out := st.out, wn := st.wn } <;> rw [hmr] at h
          rename_i oc mst
          simp only [Prod.mk.injEq] at h
          obtain ⟨hoc, hres⟩ := h
          have hlen1 : 1 ≤ st.files.length := by
            cases hfe : st.files with
            | nil => exact absurd hfe hne
            | cons a l => simp [hfe]
          have hmperm := mergeRun_ok_perm (rwrecCompare rev K) cfg.tOpen cfg.wr cfg.M hwr
            cfg.fuel
            { files := st.files, a := 0, last := st.files.length - 1, deleted := [],
              out := st.out, wn := st.wn } mst (by simp; omega) (by simp) (by simp [hout0])
            (by rw [hmr, hoc])
          rw [← hres]
          have he : st.files.length - 1 + 1 - 0 = st.files.length := by omega
          rw [he, segFlat_all] at hmperm
          refine hmperm.trans (hfperm.trans ?_)
          rw [hNflat]
      case fatalP st => simp at h
      case fuelP st => simp at h
  case false =>
      simp only [rwsortRun, Bool.false_eq_true, if_false] at h
      cases hph : sortRandomPhase (rwrecCompare rev K) cfg
          (inputs.flatten.map (mkNode extr)) <;> rw [hph] at h <;> dsimp only at h
      case none => simp at h
      case some ph =>
          obtain ⟨_, hperm⟩ := sortRandomPhase_facts hc cfg _ ph hph
          by_cases hbuf : ph.buf = []
          · rw [if_pos hbuf] at h
            by_cases hfils : ph.files = []
            · rw [if_pos hfils] at h
              simp only [Prod.mk.injEq] at h
              rw [← h.2]
              rw [hbuf, hfils] at hperm
              simpa using hperm
            · rw [if_neg hfils] at h
              simp only [runMergePhase] at h
              cases hmr : mergeRun (rwrecCompare rev K) cfg.tOpen cfg.wr cfg.M cfg.fuel
                  { files := ph.files, a := 0, last := ph.files.length - 1, deleted := [],
                    out := [], wn := 0 } <;> rw [hmr] at h
              rename_i oc mst
              simp only [Prod.mk.injEq] at h
              obtain ⟨hoc, hres⟩ := h
              have hlen1 : 1 ≤ ph.files.length := by
                cases hfe : ph.files with
                | nil => exact absurd hfe hfils
                | cons a l => simp [hfe]
              have hmperm := mergeRun_ok_perm (rwrecCompare rev K) cfg.tOpen cfg.wr cfg.M hwr
                cfg.fuel
                { files := ph.files, a := 0, last := ph.files.length - 1, deleted := [],
                  out := [], wn := 0 } mst (by simp; omega) (by simp) rfl
                (by rw [hmr, hoc])
              rw [← hres]
              have he : ph.files.length - 1 + 1 - 0 = ph.files.length := by omega
              rw [he, segFlat_all] at hmperm
              rw [hbuf, List.append_nil] at hperm
              exact hmperm.trans hperm
          · rw [if_neg hbuf] at h
            by_cases hfils : ph.files = []
            · rw [if_pos hfils] at h
              cases hwa : writeAll cfg.wr 0 (sortBuf (rwrecCompare rev K) ph.buf) <;>
                rw [hwa] at h <;> dsimp only at h
              · simp at h
              next p =>
                  simp only [Prod.mk.injEq] at h
                  rw [← h.2]
                  rw [writeAll_allOk cfg.wr hwr _ 0] at hwa
                  simp only [Option.some.injEq] at hwa
                  rw [← hwa]
                  refine (sortBuf_perm (rwrecCompare rev K) ph.buf).trans ?_
                  rw [hfils, List.flatten_nil, List.nil_append] at hperm
                  exact hperm
            · rw [if_neg hfils] at h
              simp only [runMergePhase] at h
              cases hmr : mergeRun (rwrecCompare rev K) cfg.tOpen cfg.wr cfg.M cfg.fuel
                  { files := ph.files ++ [sortBuf (rwrecCompare rev K) ph.buf], a := 0,
                    last := (ph.files ++ [sortBuf (rwrecCompare rev K) ph.buf]).length - 1,
                    deleted := [], out := [], wn := 0 } <;> rw [hmr] at h
              rename_i oc mst
              simp only [Prod.mk.injEq] at h
              obtain ⟨hoc, hres⟩ := h
              have hmperm := mergeRun_ok_perm (rwrecCompare rev K) cfg.tOpen cfg.wr cfg.M hwr
                cfg.fuel
                { files := ph.files ++ [sortBuf (rwrecCompare rev K) ph.buf], a := 0,
                  last := (ph.files ++ [sortBuf (rwrecCompare rev K) ph.buf]).length - 1,
                  deleted := [], out := [], wn := 0 } mst (by simp) (by simp) rfl
                (by rw [hmr, hoc])
              rw [← hres]
              have he : (ph.files ++ [sortBuf (rwrecCompare rev K) ph.buf]).length - 1 + 1 - 0 =
                  (ph.files ++ [sortBuf (rwrecCompare rev K) ph.buf]).length := by
                simp
              rw [he, segFlat_all] at hmperm
              rw [List.flatten_append] at hmperm
              simp only [List.flatten_cons, List.flatten_nil, List.append_nil] at hmperm
              refine hmperm.trans ?_
              refine List.Perm.trans ?_ hperm
              exact (sortBuf_perm (rwrecCompare rev K) ph.buf).append_left ph.files.flatten

/-- C9: for every pair of nodes and every sort-field list, the comparator
with reverse set returns exactly the negation of its value with reverse
unset (RETURN_SORT_ORDER, rwsort.c lines 146-159); in particular the two
flags agree on which pairs compare equal, and the descriptor order of the
fields is the same list K in both cases. -/
theorem C9_reverse_negation (K : List SortField) (x y : Node) :
    rwrecCompare true K x y = -rwrecCompare false K x y ∧
      (rwrecCompare true K x y = 0 ↔ rwrecCompare false K x y = 0) := by
  refine ⟨rwrecCompare_rev_neg K x y, ?_⟩
  rw [rwrecCompare_rev_neg K x y]
  omega

/-- C10: refuted - the heap can be empty when the drain extracts its final
run.  With merge fanout 2, three empty presorted input streams leave two
empty temp files for mergeFiles; its pass opens both readers, seeds no run,
and reaches the unchecked skHeapExtractTop of rwsort.c line 604 with an
empty heap, after which the drain loop reads recs and fps at an
indeterminate index (the model's uninitDrain outcome). -/
theorem C10_empty_heap_drain :
    (rwsortRun [SortField.stime] false [] cfgFan2 true [[], [], []]).1 =
      Outcome.uninitDrain := by
  decide

/-- Witness: C1 at a concrete unsorted two-record stream in an all-ok
environment. -/
theorem C1_witness :
    KOk [SortField.stime] ∧
      (rwsortRun [SortField.stime] false [] cfgAllOk false [[rec0 2, rec0 1]]).2.out.Chain'
        (nodeLe [SortField.stime] false) := by
  have hK : KOk [SortField.stime] := by
    intro f hf
    simp only [List.mem_singleton] at hf
    subst hf
    exact trivial
  refine ⟨hK, C1_output_adjacent_sorted [SortField.stime] false [] cfgAllOk false
    [[rec0 2, rec0 1]]
    (rwsortRun [SortField.stime] false [] cfgAllOk false [[rec0 2, rec0 1]]).2
    hK ?_ (by decide)⟩
  intro hp
  simp at hp

/-- Witness: C2 at a concrete two-stream input in an all-ok environment. -/
theorem C2_witness :
    KOk [SortField.stime] ∧ (∀ n, cfgAllOk.wr n = WRes.ok) ∧
      List.Perm ((rwsortRun [SortField.stime] false [] cfgAllOk false
          [[rec0 4], [rec0 3]]).2.out.map Node.rwrec)
        ([[rec0 4], [rec0 3]] : List (List RwRec)).flatten := by
  have hK : KOk [SortField.stime] := by
    intro f hf
    simp only [List.mem_singleton] at hf
    subst hf
    exact trivial
  exact ⟨hK, fun n => rfl, C2_output_permutation [SortField.stime] false [] cfgAllOk false
    [[rec0 4], [rec0 3]]
    (rwsortRun [SortField.stime] false [] cfgAllOk false [[rec0 4], [rec0 3]]).2
    hK (fun n => rfl) (by decide)⟩

/-- Counterexample to C2 as stated: when the first output write reports a
retryable error the record scheduled for that write is dropped (rwsort.c
logs and continues, lines 577-586), so the completed run emits only one of
the two input records and the output is not a permutation of the input. -/
theorem C2_counterexample :
    (rwsortRun [SortField.stime] false [] cfgDropWrite false [[rec0 1, rec0 2]]).1 =
      Outcome.ok ∧
      ¬ List.Perm ((rwsortRun [SortField.stime] false [] cfgDropWrite false
          [[rec0 1, rec0 2]]).2.out.map Node.rwrec) [rec0 1, rec0 2] := by
  decide

theorem seedsOf_nil_all_empty {files : List (List Node)} {pre : List Nat}
    (h : seedsOf files pre = []) : ∀ i ∈ pre, files.getD i [] = [] := by
  intro i hi
  by_contra hne
  have hmem : files.getD i [] ∈ (pre.map (fun j => files.getD j [])).filter
      (fun r => !r.isEmpty) := by
    refine List.mem_filter.mpr ⟨List.mem_map.mpr ⟨i, hi, rfl⟩, ?_⟩
    cases hv : files.getD i [] with
    | nil => exact absurd hv hne
    | cons y ys => rfl
  rw [show (pre.map (fun j => files.getD j [])).filter (fun r => !r.isEmpty) =
      seedsOf files pre from rfl, h] at hmem
  exact absurd hmem (List.not_mem_nil _)

/-- C3 (amended): during a merge pass, a resource failure (EMFILE or ENOMEM)
on a reader open truncates the pass exactly when an earlier open of the pass
seeded the merge heap, that is, opened a non-empty temp file; when every
earlier open found an empty file the resource failure is fatal even though
readers were opened (open_count at rwsort.c line 533 counts seeded readers,
not opened readers - see the counterexample), and a non-resource open
failure is always fatal. -/
theorem C3_open_loop_behavior (files : List (List Node)) (oracle : Nat → OpenRes)
    (pre : List Nat) (j : Nat) (post : List Nat)
    (hok : ∀ i ∈ pre, oracle i = OpenRes.ok) :
    (oracle j = OpenRes.resErr → seedsOf files pre ≠ [] →
      openScan files oracle (pre ++ j :: post) false =
        OpenOut.done (seedsOf files pre) pre.length pre.length true) ∧
    (oracle j = OpenRes.resErr → seedsOf files pre = [] →
      openScan files oracle (pre ++ j :: post) false = OpenOut.fatal pre.length) ∧
    (oracle j = OpenRes.otherErr →
      openScan files oracle (pre ++ j :: post) false = OpenOut.fatal pre.length) := by
  refine ⟨?_, ?_, ?_⟩
  · intro hj hseed
    exact openScan_truncate files oracle pre j post false hok hj (Or.inr hseed)
  · intro hj hseed
    exact openScan_fatal_res files oracle pre j post hok hj (seedsOf_nil_all_empty hseed)
  · intro hj
    exact openScan_fatal_other files oracle pre j post false hok hj

/-- Witness: C3 at a table whose first file is non-empty, so the resource
failure on the second open truncates the pass to the first file. -/
theorem C3_witness :
    (∀ i ∈ [0], (fun j => if j = 0 then OpenRes.ok else OpenRes.resErr) i = OpenRes.ok) ∧
      openScan [[nd 5], []] (fun j => if j = 0 then OpenRes.ok else OpenRes.resErr)
        ([0] ++ 1 :: [2]) false =
        OpenOut.done (seedsOf [[nd 5], []] [0]) 1 1 true := by
  have hok : ∀ i ∈ [0],
      (fun j => if j = 0 then OpenRes.ok else OpenRes.resErr) i = OpenRes.ok := by
    decide
  exact ⟨hok,
    (C3_open_loop_behavior [[nd 5], []] (fun j => if j = 0 then OpenRes.ok else OpenRes.resErr)
      [0] 1 [2] hok).1 (by decide) (by decide)⟩

/-- Counterexample to C3 as stated: the first scheduled file opens
successfully but is empty, so no reader is seeded; the resource failure on
the second open is then fatal (OpenOut.fatal, with count 1 recording the one
successful open) even though a reader of the pass had been opened, where the
claim requires truncation. -/
theorem C3_counterexample :
    openScan [[], [nd 1]] (fun j => if j = 0 then OpenRes.ok else OpenRes.resErr)
      [0, 1] false = OpenOut.fatal 1 := by
  decide

/-- C4 (amended): when the run buffer fills at a capacity C below the
ceiling, the capacity the code attempts to grow to is the ceiling itself
whenever C plus two chunks exceeds the ceiling, and C plus one chunk
otherwise (rwsort.c lines 984-987) - not min(C + chunk, ceiling): when
C + chunk < ceiling < C + 2 chunk the code snaps to the ceiling early (see
the counterexample).  If the reallocation fails the ceiling is pinned to the
current record count and the full buffer is sorted and spilled. -/
theorem C4_growth_step (cmp : Node → Node → Int) (reallocOk : Nat → Bool)
    (st : RandPhase) (x : Node)
    (hfull : (st.buf ++ [x]).length = st.bufRecs)
    (hlt : st.bufRecs < st.bufMax) :
    (fillStep cmp reallocOk st x).grows = st.grows ++
      [if st.bufRecs + st.chunk + st.chunk > st.bufMax then st.bufMax
       else st.bufRecs + st.chunk] ∧
    (reallocOk (if st.bufRecs + st.chunk + st.chunk > st.bufMax then st.bufMax
        else st.bufRecs + st.chunk) = false →
      (fillStep cmp reallocOk st x).bufMax = st.bufRecs ∧
      (fillStep cmp reallocOk st x).buf = [] ∧
      (fillStep cmp reallocOk st x).files = st.files ++ [sortBuf cmp (st.buf ++ [x])]) := by
  simp only [fillStep, if_pos hfull, if_pos hlt]
  cases hre : reallocOk (if st.bufRecs + st.chunk + st.chunk > st.bufMax then st.bufMax
      else st.bufRecs + st.chunk)
  · simp only [hre, Bool.false_eq_true, if_false, if_pos rfl]
    exact ⟨rfl, fun _ => ⟨hfull, rfl, rfl⟩⟩
  · simp only [hre, if_true]
    have hne : ¬ ((st.buf ++ [x]).length = st.bufMax) := by omega
    simp only [if_neg hne]
    exact ⟨by trivial, fun hcontra => absurd hcontra (by simp)⟩

/-- Witness: C4 on a buffer filling at capacity 2 under ceiling 5 with chunk
1 and a failing realloc: the attempted target is 3, the ceiling is pinned to
2 and the buffer is spilled sorted. -/
theorem C4_witness :
    (phW.buf ++ [nd 2]).length = phW.bufRecs ∧ phW.bufRecs < phW.bufMax ∧
      ((fillStep cmpW (fun _ => false) phW (nd 2)).grows = phW.grows ++
          [if phW.bufRecs + phW.chunk + phW.chunk > phW.bufMax then phW.bufMax
           else phW.bufRecs + phW.chunk] ∧
        ((fun _ : Nat => false) (if phW.bufRecs + phW.chunk + phW.chunk > phW.bufMax
            then phW.bufMax else phW.bufRecs + phW.chunk) = false →
          (fillStep cmpW (fun _ => false) phW (nd 2)).bufMax = phW.bufRecs ∧
          (fillStep cmpW (fun _ => false) phW (nd 2)).buf = [] ∧
          (fillStep cmpW (fun _ => false) phW (nd 2)).files =
            phW.files ++ [sortBuf cmpW (phW.buf ++ [nd 2])])) :=
  ⟨by decide, by decide, C4_growth_step cmpW (fun _ => false) phW (nd 2)
    (by decide) (by decide)⟩

/-- Counterexample to C4 as stated: with ceiling 9 and chunk 2, the buffer
fills at capacities 2, 4 and 6 and the attempted growth targets are 4, 6
and 9 - the third target snaps to the ceiling 9 because 6 + 2 + 2 > 9,
while the claim's formula min(C + chunk, ceiling) = min(6 + 2, 9) gives 8. -/
theorem C4_counterexample :
    (sortRandomPhase cmpW cfgGrow ((List.range 7).map (fun i => nd i))).map
        RandPhase.grows = some [4, 6, 9] ∧
      min (6 + 2) cfgGrow.maxRecs = 8 ∧ ¬ (9 : Nat) = 8 := by
  decide

theorem range_div_shift (maxRecs nc k : Nat) :
    (List.range (k + 1 + 1)).map (fun i => maxRecs / (nc + i)) =
      maxRecs / nc :: (List.range (k + 1)).map (fun i => maxRecs / (nc + 1 + i)) := by
  rw [List.range_succ_eq_map]
  simp only [List.map_cons, List.map_map, Nat.add_zero]
  congr 1
  apply List.map_congr_left
  intro i _
  show maxRecs / (nc + (i + 1)) = maxRecs / (nc + 1 + i)
  congr 1
  omega

/-- C5 (amended): if the initial allocation of the run buffer fails, the
chunk COUNT is incremented by one (num_chunks++ at rwsort.c line 936, so
the chunk shrinks to maxRecs divided by the next count) - the divisor is
not doubled (see the counterexample) - and the loop gives up with a fatal
error exactly when a failed attempt's chunk is below the MIN_IN_CORE floor.
The theorem characterizes the whole retry loop: the attempted chunk sizes
divide maxRecs by consecutive counts nc, nc+1, ..., every failed attempt
before the last had a chunk at or above the floor, and the loop returns
none exactly when its last attempt fails below the floor. -/
theorem C5_alloc_retry_behavior (allocOk : Nat → Bool) (maxRecs : Nat) :
    ∀ (fuel nc : Nat) (att : List Nat), maxRecs + 1 ≤ nc + fuel → 1 ≤ nc →
      ∃ k,
        (∀ i < k, allocOk (maxRecs / (nc + i)) = false ∧
          MIN_IN_CORE_RECORDS ≤ maxRecs / (nc + i)) ∧
        initAllocGo allocOk maxRecs fuel nc att =
          (att ++ (List.range (k + 1)).map (fun i => maxRecs / (nc + i)),
            if allocOk (maxRecs / (nc + k)) then some (nc + k, maxRecs / (nc + k))
            else none) ∧
        (allocOk (maxRecs / (nc + k)) = false →
          maxRecs / (nc + k) < MIN_IN_CORE_RECORDS) := by
  intro fuel
  induction fuel with
  | zero =>
      intro nc att h h1
      have hdiv : maxRecs / nc = 0 := Nat.div_eq_of_lt (by omega)
      refine ⟨0, fun i hi => absurd hi (Nat.not_lt_zero i), ?_, ?_⟩
      · cases hA : allocOk (maxRecs / nc) <;> simp [initAllocGo, hA, List.range_succ]
      · intro _
        rw [Nat.add_zero, hdiv]
        decide
  | succ fuel ih =>
      intro nc att h h1
      cases hA : allocOk (maxRecs / nc)
      case true =>
          refine ⟨0, fun i hi => absurd hi (Nat.not_lt_zero i), ?_, ?_⟩
          · simp [initAllocGo, hA, List.range_succ]
          · intro hF
            rw [Nat.add_zero, hA] at hF
            cases hF
      case false =>
          by_cases hMin : maxRecs / nc < MIN_IN_CORE_RECORDS
          · refine ⟨0, fun i hi => absurd hi (Nat.not_lt_zero i), ?_, ?_⟩
            · simp [initAllocGo, hA, hMin, List.range_succ]
            · intro _
              rw [Nat.add_zero]
              exact hMin
          · obtain ⟨k, h1k, h2k, h3k⟩ := ih (nc + 1) (att ++ [maxRecs / nc])
              (by omega) (by omega)
            have hnck : nc + 1 + k = nc + (k + 1) := by omega
            refine ⟨k + 1, ?_, ?_, ?_⟩
            · intro i hi
              cases i with
              | zero => exact ⟨by simpa using hA, by simpa using Nat.le_of_not_lt hMin⟩
              | succ j =>
                  have hj : j < k := by omega
                  have hkj := h1k j hj
                  have he : nc + 1 + j = nc + (j + 1) := by omega
                  rw [he] at hkj
                  exact hkj
            · have hstep : initAllocGo allocOk maxRecs (fuel + 1) nc att =
                  initAllocGo allocOk maxRecs fuel (nc + 1) (att ++ [maxRecs / nc]) := by
                simp only [initAllocGo, hA, Bool.false_eq_true, if_false, if_neg hMin]
              have hmap : (att ++ [maxRecs / nc]) ++ (List.range (k + 1)).map
                  (fun i => maxRecs / (nc + 1 + i)) =
                  att ++ (List.range (k + 1 + 1)).map (fun i => maxRecs / (nc + i)) := by
                rw [List.append_assoc, range_div_shift maxRecs nc k]
                rfl
              rw [hstep, h2k, hnck, hmap]
            · intro hF
              rw [← hnck] at hF
              have := h3k hF
              rw [hnck] at this
              exact this

/-- Witness: C5 on an allocator that grants at most 1000 records, with
ceiling 2400 and two initial chunks: the first attempt (1200) fails, the
count is incremented and the second attempt (800) succeeds. -/
theorem C5_witness :
    2400 + 1 ≤ 2 + 2399 ∧ (1 : Nat) ≤ 2 ∧
      ∃ k,
        (∀ i < k, (fun s => decide (s ≤ 1000)) (2400 / (2 + i)) = false ∧
          MIN_IN_CORE_RECORDS ≤ 2400 / (2 + i)) ∧
        initAllocGo (fun s => decide (s ≤ 1000)) 2400 2399 2 [] =
          ([] ++ (List.range (k + 1)).map (fun i => 2400 / (2 + i)),
            if (fun s => decide (s ≤ 1000)) (2400 / (2 + k)) then
              some (2 + k, 2400 / (2 + k)) else none) ∧
        ((fun s => decide (s ≤ 1000)) (2400 / (2 + k)) = false →
          2400 / (2 + k) < MIN_IN_CORE_RECORDS) :=
  ⟨by decide, by decide,
    C5_alloc_retry_behavior (fun s => decide (s ≤ 1000)) 2400 2399 2 [] (by decide) (by decide)⟩

/-- Counterexample to C5 as stated: with ceiling 2400 and initial chunk
count 2, the failed first attempt of 1200 records is followed by an attempt
of 2400 / 3 = 800 records (the count was incremented to 3); doubling the
divisor would instead attempt 2400 / 4 = 600 records. -/
theorem C5_counterexample :
    initAllocGo (fun s => decide (s ≤ 1000)) 2400 2399 2 [] = ([1200, 800], some (3, 800)) ∧
      2400 / (2 * 2) = 600 ∧ ¬ (800 : Nat) = 600 := by
  decide

/-- C6: in every merge pass, when the (possibly truncated) consumed range
reaches the last scheduled run index the merged records go to the final
output stream and the pass's intermediate temp file stays empty and is not
enqueued (the active-set bound st2.last stays st.last); otherwise all merged
records are written to the intermediate file (the entry at index
st.files.length) and its index becomes the new last active index. -/
theorem C6_merge_destination (cmp : Node → Node → Int) (oracle : Nat → OpenRes)
    (wr : Nat → WRes) (M : Nat) (st st2 : MState) (hal : st.a ≤ st.last) :
    (mergePass cmp oracle wr M st = PassOut.finished st2 →
      st2.a = st.last + 1 ∧ st2.files = st.files ++ [[]] ∧ st2.last = st.last ∧
      ∃ p, writeAll wr st.wn (kmerge cmp (seedsOf (st.files ++ [[]])
          (List.range' st.a (st2.a - st.a)))) = some p ∧ st2.out = st.out ++ p.2) ∧
    (mergePass cmp oracle wr M st = PassOut.next st2 →
      st2.out = st.out ∧ st2.last = st.files.length ∧ st2.a ≤ st.last ∧
      st2.files = (st.files ++ [[]]).set st.files.length
        (kmerge cmp (seedsOf (st.files ++ [[]]) (List.range' st.a (st2.a - st.a))))) := by
  constructor
  · intro h
    obtain ⟨consumed, p, hne, hc1, hcb, hw, hf, ha2, hl2, hd2, ho2, hw2⟩ :=
      mergePass_finished_spec cmp oracle wr M st st2 hal h
    have hcon : st2.a - st.a = consumed := by omega
    rw [hcon]
    exact ⟨by omega, hf, hl2, p, hw, ho2⟩
  · intro h
    obtain ⟨consumed, hne, hc1, hcb, hcl, hf, ha2, hl2, hd2, ho2, hw2⟩ :=
      mergePass_next_spec cmp oracle wr M st st2 hal h
    have hcon : st2.a - st.a = consumed := by omega
    rw [hcon]
    exact ⟨ho2, hl2, by omega, hf⟩

/-- Witness: C6 on two one-record temp files with fanout 4: the pass
consumes both, discards its intermediate and writes both records to the
final output. -/
theorem C6_witness :
    mstW.a ≤ mstW.last ∧
      (mstW2.a = mstW.last + 1 ∧ mstW2.files = mstW.files ++ [[]] ∧
        mstW2.last = mstW.last ∧
        ∃ p, writeAll (fun _ => WRes.ok) mstW.wn (kmerge cmpW (seedsOf (mstW.files ++ [[]])
            (List.range' mstW.a (mstW2.a - mstW.a)))) = some p ∧
          mstW2.out = mstW.out ++ p.2) :=
  ⟨by decide,
    (C6_merge_destination cmpW (fun _ => OpenRes.ok) (fun _ => WRes.ok) 4 mstW mstW2
      (by decide)).1 (by decide)⟩

/-- C7: after a merge pass that continues or finishes, the pass consumed a
non-empty index range starting at st.a, the next pass starts right after the
consumed range (a advances to b_trunc + 1), and every index of the consumed
range - opened or not, empty or not - has been deleted. -/
theorem C7_pass_deletion (cmp : Node → Node → Int) (oracle : Nat → OpenRes) (wr : Nat → WRes)
    (M : Nat) (st st2 : MState) (hal : st.a ≤ st.last)
    (h : mergePass cmp oracle wr M st = PassOut.next st2 ∨
         mergePass cmp oracle wr M st = PassOut.finished st2) :
    st.a < st2.a ∧ st2.deleted = st.deleted ++ List.range' st.a (st2.a - st.a) ∧
      ∀ j, st.a ≤ j → j < st2.a → j ∈ st2.deleted := by
  have hbase : ∃ consumed, 1 ≤ consumed ∧ st2.a = st.a + consumed ∧
      st2.deleted = st.deleted ++ List.range' st.a consumed := by
    rcases h with h | h
    · obtain ⟨consumed, hne, hc1, hcb, hcl, hf, ha2, hl2, hd2, ho2, hw2⟩ :=
        mergePass_next_spec cmp oracle wr M st st2 hal h
      exact ⟨consumed, hc1, ha2, hd2⟩
    · obtain ⟨consumed, p, hne, hc1, hcb, hw, hf, ha2, hl2, hd2, ho2, hw2⟩ :=
        mergePass_finished_spec cmp oracle wr M st st2 hal h
      exact ⟨consumed, hc1, ha2, hd2⟩
  obtain ⟨consumed, hc1, ha2, hd2⟩ := hbase
  have hcon : st2.a - st.a = consumed := by omega
  refine ⟨by omega, by rw [hcon]; exact hd2, ?_⟩
  intro j hj1 hj2
  rw [hd2]
  refine List.mem_append.mpr (Or.inr ?_)
  rw [List.mem_range'_1]
  omega

/-- Witness: C7 on three one-record temp files with fanout 2: the pass
merges files 0 and 1 into the intermediate (index 3), deletes indices 0 and
1, and the next pass starts at index 2. -/
theorem C7_witness :
    mst7.a ≤ mst7.last ∧
      (mst7.a < mst7b.a ∧
        mst7b.deleted = mst7.deleted ++ List.range' mst7.a (mst7b.a - mst7.a) ∧
        ∀ j, mst7.a ≤ j → j < mst7b.a → j ∈ mst7b.deleted) :=
  ⟨by decide,
    C7_pass_deletion cmpW (fun _ => OpenRes.ok) (fun _ => WRes.ok) 2 mst7 mst7b
      (by decide) (Or.inl (by decide))⟩

theorem inScanGo_allOk (nIn : Nat) (oracle : Nat → OpenRes)
    (hok : ∀ i, oracle i = OpenRes.ok) (inIdx : Nat) :
    ∀ (slots c : Nat), inIdx + c ≤ nIn → nIn - (inIdx + c) < slots →
      inScanGo nIn oracle inIdx c slots = (nIn - inIdx, InRv.noMore) := by
  intro slots
  induction slots with
  | zero =>
      intro c h1 h2
      exact absurd h2 (by omega)
  | succ slots ih =>
      intro c h1 h2
      by_cases hn : nIn ≤ inIdx + c
      · simp only [inScanGo, if_pos hn]
        have hc : c = nIn - inIdx := by omega
        rw [hc]
      · simp only [inScanGo, if_neg hn, hok (inIdx + c)]
        exact ih (c + 1) (by omega) (by omega)

/-- C8 (amended): in the presorted path, when the first pass opens every
input stream (fewer inputs than the fanout, all opens succeeding) the
records go directly to the final output and the run creates no temp file
BEYOND the single intermediate that sortPresorted creates before opening
its inputs (rwsort.c line 713) and then discards unused: the temp-file
trace of the whole run is exactly one file that stays empty.  The original
claim of zero temp files is refuted by the counterexample. -/
theorem C8_presorted_one_temp (K : List SortField) (rev : Bool)
    (extr : List (RwRec → List Nat)) (cfg : Cfg) (inputs : List (List RwRec))
    (oc : Outcome) (res : RunRes)
    (hM : inputs.length < cfg.M) (hopen : ∀ n, cfg.inOpen n = OpenRes.ok)
    (hfuel : 1 ≤ cfg.fuel)
    (h : rwsortRun K rev extr cfg true inputs = (oc, res)) :
    res.files = [[]] := by
  obtain ⟨f, hf⟩ : ∃ f, cfg.fuel = f + 1 := ⟨cfg.fuel - 1, by omega⟩
  have hscan := inScanGo_allOk inputs.length cfg.inOpen hopen 0 cfg.M 0 (by omega)
    (by omega)
  simp only [rwsortRun, if_true, hf, presortRun, presortPass, hscan] at h
  simp only [List.length_nil, List.nil_append, if_pos rfl] at h
  cases hwa : writeAll cfg.wr 0 (kmerge (rwrecCompare rev K)
      (((List.range' 0 (inputs.length - 0)).map
        (fun i => (inputs.getD i []).map (mkNode extr))).filter
          (fun r => !r.isEmpty))) <;> rw [hwa] at h <;> dsimp only at h
  · simp only [if_true] at h
    simp only [Prod.mk.injEq] at h
    rw [← h.2]
  · simp only [if_true] at h
    simp only [Prod.mk.injEq] at h
    rw [← h.2]

/-- Witness: C8 on two singleton presorted inputs with fanout 4: the run's
temp-file trace is the single empty intermediate. -/
theorem C8_witness :
    ([[rec0 3], [rec0 1]] : List (List RwRec)).length < cfgAllOk.M ∧ 1 ≤ cfgAllOk.fuel ∧
      (rwsortRun [SortField.stime] true [] cfgAllOk true [[rec0 3], [rec0 1]]).2.files =
        [[]] :=
  ⟨by decide, by decide,
    C8_presorted_one_temp [SortField.stime] true [] cfgAllOk [[rec0 3], [rec0 1]]
      (rwsortRun [SortField.stime] true [] cfgAllOk true [[rec0 3], [rec0 1]]).1
      (rwsortRun [SortField.stime] true [] cfgAllOk true [[rec0 3], [rec0 1]]).2
      (by decide) (fun n => rfl) (by decide) rfl⟩

/-- Counterexample to C8 as stated: a presorted run whose first pass opens
both inputs and writes the records directly to the final output still
creates one temp file - sortPresorted calls skTempFileCreate before opening
any input (rwsort.c line 713) and only then discards it - so the temp-file
trace is non-empty. -/
theorem C8_counterexample :
    (rwsortRun [SortField.stime] false [] cfgAllOk true [[rec0 1], [rec0 2]]).1 =
        Outcome.ok ∧
      (rwsortRun [SortField.stime] false [] cfgAllOk true [[rec0 1], [rec0 2]]).2.out =
        [nd 1, nd 2] ∧
      ¬ (rwsortRun [SortField.stime] false [] cfgAllOk true [[rec0 1], [rec0 2]]).2.files
        = [] := by
  decide

end RwSort
